import Mathlib

/-!
# taskK: guessing the instruction set of an assembly listing

A shallow embedding of `course1-1/0-AMPh-olymp/taskK.cpp`.

Memory is a list of bytes (`Nat`), a `char*` is an offset into the buffer or,
for the words handed to the classifier, the memory that starts at the pointer
(a view).  Reading past the end of the modelled memory yields `0`.  The global
variables of the program are passed explicitly.  The two `while` loops whose
termination is not structural take a fuel argument and answer `none` when it
runs out.
-/

namespace TaskK

/-! ## Constants -/

/-- The byte of the double quote. -/
def QUOTE : Nat := 34

/-- The bytes of `delimiters = " \t\r\n,()[]"`, in the order of the source. -/
def delimiters : List Nat := [32, 9, 13, 10, 44, 40, 41, 91, 93]

/-- The bytes of an ASCII string literal of the source. -/
def bytes (s : String) : List Nat := s.toList.map Char.toNat

/-! ## C library primitives -/

/-- The scan of `strchr` over the memory that starts at offset `i`: the offset
of the first byte equal to `c`, `none` when the terminating NUL comes first. -/
def strchr_from : List Nat → Nat → Nat → Option Nat
  | [], _, _ => none
  | x :: xs, i, c =>
    if x = c then some i
    else if x = 0 then none
    else strchr_from xs (i + 1) c

/-- The call `strchr (data + pos, c)`, as an offset into `data`. -/
def strchr (data : List Nat) (pos c : Nat) : Option Nat :=
  strchr_from (data.drop pos) pos c

/-- The call `memmove (data + dst, data + src, n)`. -/
def memmove (data : List Nat) (dst src n : Nat) : List Nat :=
  data.take dst ++ (data.drop src).take n ++ data.drop (dst + n)

/-- The string a `char*` denotes: the bytes before the first NUL. -/
def c_str (word : List Nat) : List Nat :=
  word.takeWhile (fun c => c != 0)

/-- The test `!strcmp (word, lit)` for a NUL-free literal `lit`. -/
def str_eq (word lit : List Nat) : Bool :=
  c_str word == lit

/-- The function `tolower` of the "C" locale. -/
def tolower (c : Nat) : Nat :=
  if 65 ≤ c ∧ c ≤ 90 then c + 32 else c

/-- The call `strspn (s, delimiters)`. -/
def strspn : List Nat → Nat
  | [] => 0
  | x :: xs => if x ∈ delimiters then strspn xs + 1 else 0

/-- The call `strcspn (s, delimiters)`. -/
def strcspn : List Nat → Nat
  | [] => 0
  | x :: xs => if x = 0 ∨ x ∈ delimiters then 0 else strcspn xs + 1

/-! ## `cut_string_literals` -/

/-- The loop of `cut_string_literals`, one iteration per unit of fuel. The
state is the buffer, `data_len`, `pos` and `begin` (`none` for `nullptr`). -/
def cut_loop : Nat → List Nat → Nat → Nat → Option Nat → Option (List Nat × Nat)
  | 0, _, _, _, _ => none
  | fuel + 1, data, data_len, pos, begin =>
    match strchr data pos QUOTE with
    | none => some (data, data_len)
    | some quote =>
      match begin with
      | some b =>
        cut_loop fuel (memmove data b (quote + 1) (data_len - (quote + 1)))
          (data_len - (quote + 1 - b)) b none
      | none => cut_loop fuel data data_len (quote + 1) (some quote)

/-- The function `cut_string_literals` on the globals `data` and `data_len`.
The loop runs at most once per byte of the buffer. -/
def cut_string_literals (data : List Nat) (data_len : Nat) : Option (List Nat × Nat) :=
  cut_loop (data.length + 1) data data_len 0 none

/-! ## `lowercase` -/

/-- The function `lowercase`: `tolower` on each of the `data_len` recorded bytes. -/
def lowercase (data : List Nat) (data_len : Nat) : List Nat :=
  (data.take data_len).map tolower ++ data.drop data_len

/-! ## `tokenize` -/

/-- One call of `strtok_r` with `delimiters` that scans from offset `p` (the
start of the buffer on the first call, the saved pointer afterwards): `none`
for `NULL`, else the offset of the token, the buffer with the token
terminated, and the new saved pointer. -/
def strtok_r (data : List Nat) (p : Nat) : Option (Nat × List Nat × Nat) :=
  let s := p + strspn (data.drop p)
  if data.getD s 0 = 0 then none
  else
    let e := s + strcspn (data.drop s)
    if data.getD e 0 = 0 then some (s, data, e)
    else some (s, data.set e 0, e + 1)

/-- The loop of `tokenize`, one call of `strtok_r` per unit of fuel; `words`
holds the offsets pushed so far. -/
def tokenize_loop : Nat → List Nat → Nat → List Nat → Option (List Nat × List Nat)
  | 0, _, _, _ => none
  | fuel + 1, data, p, words =>
    match strtok_r data p with
    | none => some (data, words)
    | some (token, data1, p1) => tokenize_loop fuel data1 p1 (words ++ [token])

/-- The function `tokenize`: the buffer it leaves and the vector `words`, as
offsets into the buffer. Every call of `strtok_r` but the last consumes a byte. -/
def tokenize (data : List Nat) : Option (List Nat × List Nat) :=
  tokenize_loop (data.length + 1) data 0 []

/-- The memory a word pointer sees: the buffer from its offset on. -/
def word_views (data : List Nat) (words : List Nat) : List (List Nat) :=
  words.map (fun w => data.drop w)

/-! ## The classification flags -/

inductive Isa where
  | ISA_X86
  | ISA_ARM
  deriving DecidableEq

inductive ArmVfp where
  | ARM_VFP_ABSENT
  | ARM_VFP_PRESENT
  deriving DecidableEq

inductive X86Flavor where
  | X86_FLAVOR_INTEL
  | X86_FLAVOR_ATT
  deriving DecidableEq

inductive X87 where
  | X87_ABSENT
  | X87_PRESENT
  deriving DecidableEq

inductive X86Operands where
  | X86_OPERAND_16
  | X86_OPERAND_32
  | X86_OPERAND_64
  deriving DecidableEq

open Isa ArmVfp X86Flavor X87 X86Operands

/-- The value of an enumerator of `x86_operands`. -/
def X86Operands.toNat : X86Operands → Nat
  | X86_OPERAND_16 => 0
  | X86_OPERAND_32 => 1
  | X86_OPERAND_64 => 2

/-- The call `std::max (a, b)` on `x86_operands`. -/
def max_operands (a b : X86Operands) : X86Operands :=
  if a.toNat < b.toNat then b else a

/-- The five global flags. -/
structure Flags where
  instruction_set_architecture : Isa
  arm_vfp_insns : ArmVfp
  x86_flavor : X86Flavor
  x87_insns : X87
  x86_operands : X86Operands
  deriving DecidableEq

/-- The initial values of the flags. -/
def initial_flags : Flags :=
  ⟨ISA_X86, ARM_VFP_ABSENT, X86_FLAVOR_INTEL, X87_ABSENT, X86_OPERAND_16⟩

/-! ## The classifier -/

/-- The function `check_arm_and_vfp_insns` over the views of `words`, from the
given values of `instruction_set_architecture` and `arm_vfp_insns`: the
returned boolean and the two flags. -/
def check_arm_and_vfp_insns : List (List Nat) → Isa → ArmVfp → Bool × Isa × ArmVfp
  | [], isa, vfp => (decide (isa = ISA_ARM), isa, vfp)
  | word :: rest, isa, vfp =>
    if str_eq word (bytes "vldr") || str_eq word (bytes "vstr") then
      (true, ISA_ARM, ARM_VFP_PRESENT)
    else if str_eq word (bytes "ldr") || str_eq word (bytes "str") then
      check_arm_and_vfp_insns rest ISA_ARM vfp
    else check_arm_and_vfp_insns rest isa vfp

/-- The function `check_x86_gp_reg`; `word[i]` is `word.getD i 0`. -/
def check_x86_gp_reg (word : List Nat) : Bool :=
  if word.getD 2 0 = 0 then
    if word.getD 1 0 = 120 then decide (97 ≤ word.getD 0 0 ∧ word.getD 0 0 ≤ 100)
    else if word.getD 1 0 = 105 then decide (word.getD 0 0 = 115 ∨ word.getD 0 0 = 100)
    else if word.getD 1 0 = 112 then decide (word.getD 0 0 = 115 ∨ word.getD 0 0 = 98)
    else false
  else false

/-- The function `check_x86_reg`: the returned boolean and `x86_operands`. -/
def check_x86_reg (word : List Nat) (x86_operands : X86Operands) : Bool × X86Operands :=
  if word.getD 1 0 = 115 ∧ word.getD 2 0 = 0 then
    (decide (word.getD 0 0 = 99 ∨ word.getD 0 0 = 100 ∨ word.getD 0 0 = 115), x86_operands)
  else if check_x86_gp_reg word then (true, x86_operands)
  else if check_x86_gp_reg (word.drop 1) then
    if word.getD 0 0 = 101 then (true, max_operands x86_operands X86_OPERAND_32)
    else if word.getD 0 0 = 114 then (true, max_operands x86_operands X86_OPERAND_64)
    else (false, x86_operands)
  else (false, x86_operands)

/-- The function `check_x86_regs_flavor_and_size` over the views of `words`,
from the given values of `x86_flavor` and `x86_operands`. -/
def check_x86_regs_flavor_and_size :
    List (List Nat) → X86Flavor → X86Operands → X86Flavor × X86Operands
  | [], flavor, operands => (flavor, operands)
  | word :: rest, flavor, operands =>
    if word.getD 0 0 = 37 then
      match check_x86_reg (word.drop 1) operands with
      | (true, operands1) =>
        if operands1 = X86_OPERAND_64 then (X86_FLAVOR_ATT, operands1)
        else check_x86_regs_flavor_and_size rest X86_FLAVOR_ATT operands1
      | (false, operands1) =>
        check_x86_regs_flavor_and_size rest flavor (check_x86_reg word operands1).2
    else check_x86_regs_flavor_and_size rest flavor (check_x86_reg word operands).2

/-- The function `check_x87_commands`, from the given value of `x87_insns`. -/
def check_x87_commands : List (List Nat) → X87 → X87
  | [], x87 => x87
  | word :: rest, x87 =>
    if str_eq word (bytes "finit") || str_eq word (bytes "fld") || str_eq word (bytes "fst") then
      X87_PRESENT
    else check_x87_commands rest x87

/-- The classification of main: the ARM pass and, when it returns false, the
two x86 passes. -/
def classify (words : List (List Nat)) (g : Flags) : Flags :=
  match check_arm_and_vfp_insns words g.instruction_set_architecture g.arm_vfp_insns with
  | (true, isa, vfp) => ⟨isa, vfp, g.x86_flavor, g.x87_insns, g.x86_operands⟩
  | (false, isa, vfp) =>
    let r := check_x86_regs_flavor_and_size words g.x86_flavor g.x86_operands
    ⟨isa, vfp, r.1, check_x87_commands words g.x87_insns, r.2⟩

/-- What main prints in the release build. -/
def emit (g : Flags) : String :=
  if g.instruction_set_architecture = ISA_X86 then
    "86 "
      ++ (if g.x86_flavor = X86_FLAVOR_ATT then "1 " else "0 ")
      ++ (if g.x87_insns = X87_PRESENT then "1 " else "0 ")
      ++ (match g.x86_operands with
          | X86_OPERAND_64 => "64"
          | X86_OPERAND_32 => "32"
          | X86_OPERAND_16 => "16")
      ++ "\n"
  else
    "0 " ++ (if g.arm_vfp_insns = ARM_VFP_PRESENT then "1" else "0") ++ "\n"

/-- The views of `words` when main reaches the classifier, for the bytes
`input` read from stdin; `junk` is the allocated memory behind the
terminating NUL that main appends. -/
def main_words (input junk : List Nat) : Option (List (List Nat)) :=
  match cut_string_literals (input ++ 0 :: junk) (input.length + 1) with
  | none => none
  | some (data, data_len) =>
    match tokenize (lowercase data data_len) with
    | none => none
    | some (data1, words) => some (word_views data1 words)

/-- The strings of `words` when main reaches the classifier. -/
def main_tokens (input junk : List Nat) : Option (List (List Nat)) :=
  (main_words input junk).map (fun ws => ws.map c_str)

/-- The flags at the end of main. -/
def main_flags (input junk : List Nat) : Option Flags :=
  (main_words input junk).map (fun ws => classify ws initial_flags)

/-- The program: the text main prints for the bytes `input` on stdin. -/
def main (input junk : List Nat) : Option String :=
  (main_flags input junk).map emit

/-! ## Paired-quote removal on texts -/

/-- From the pieces a text is cut into at its double quotes: the pieces at
even positions, and an unpaired last quote kept with the piece after it. -/
def unquote : List (List Nat) → List Nat
  | [] => []
  | [s] => s
  | [s, l] => s ++ QUOTE :: l
  | s :: _ :: rest => s ++ unquote rest

/-- The text without its string literals: the text is cut at every double
quote, the pieces between the 1st and 2nd, the 3rd and 4th, ... quote are
dropped together with these quotes. -/
def strip (text : List Nat) : List Nat :=
  unquote (text.splitOn QUOTE)

/-- The pieces at even positions (the 1st, 3rd, 5th, ...) of a list of pieces. -/
def even_pieces : List (List Nat) → List (List Nat)
  | [] => []
  | [s] => [s]
  | s :: _ :: rest => s :: even_pieces rest

/-- Membership in the delimiter set. -/
def is_delimiter (c : Nat) : Bool := decide (c ∈ delimiters)

/-- The maximal runs of non-delimiter bytes of a text, left to right: the
non-empty pieces the text is cut into at its delimiters. -/
def runs (text : List Nat) : List (List Nat) :=
  (text.splitOnP is_delimiter).filter (fun t => !t.isEmpty)

/-- The pieces at odd positions (the 2nd, 4th, ...) of a list of pieces. -/
def odd_pieces : List (List Nat) → List (List Nat)
  | [] => []
  | [_] => []
  | _ :: l :: rest => l :: odd_pieces rest

/-- The tokens the classifier sees for an input, by the contracts of the
stages: literals stripped from the text before the first NUL, lowercased,
split at the delimiters. -/
def spec_tokens (input : List Nat) : List (List Nat) :=
  runs ((strip (c_str input)).map tolower)

/-! ## Register names and what a token implies -/

/-- The eight 16-bit general-purpose register names. -/
def gp_reg_names : List (List Nat) :=
  [bytes "ax", bytes "bx", bytes "cx", bytes "dx", bytes "si", bytes "di", bytes "sp",
    bytes "bp"]

/-- The three segment register names. -/
def segment_reg_names : List (List Nat) := [bytes "cs", bytes "ds", bytes "ss"]

/-- The names `e` + general-purpose register. -/
def e_reg_names : List (List Nat) := gp_reg_names.map (fun n => 101 :: n)

/-- The names `r` + general-purpose register. -/
def r_reg_names : List (List Nat) := gp_reg_names.map (fun n => 114 :: n)

/-- The 27 x86 register names. -/
def x86_reg_names : List (List Nat) :=
  segment_reg_names ++ gp_reg_names ++ e_reg_names ++ r_reg_names

/-- The operand size a register name implies. -/
def reg_operands (t : List Nat) : X86Operands :=
  if t ∈ r_reg_names then X86_OPERAND_64
  else if t ∈ e_reg_names then X86_OPERAND_32
  else X86_OPERAND_16

/-- A token without one leading `%`, if it has one. -/
def strip_percent : List Nat → List Nat
  | [] => []
  | c :: u => if c = 37 then u else c :: u

/-- The operand size a token implies, a leading `%` aside. -/
def implied_operands (t : List Nat) : X86Operands :=
  reg_operands (strip_percent t)

/-- Whether a token is `%` followed by an x86 register name. -/
def is_att_register : List Nat → Bool
  | [] => false
  | c :: u => decide (c = 37) && decide (u ∈ x86_reg_names)

/-- Whether a token is one of the ARM load and store mnemonics `ldr`, `str`. -/
def is_arm_insn (t : List Nat) : Bool :=
  decide (t = bytes "ldr") || decide (t = bytes "str")

/-- Whether a token is one of the VFP mnemonics `vldr`, `vstr`. -/
def is_vfp_insn (t : List Nat) : Bool :=
  decide (t = bytes "vldr") || decide (t = bytes "vstr")

/-- Whether a token is one of the x87 mnemonics `finit`, `fld`, `fst`. -/
def is_x87_insn (t : List Nat) : Bool :=
  decide (t = bytes "finit") || decide (t = bytes "fld") || decide (t = bytes "fst")

/-- The width in bits an enumerator of `x86_operands` stands for. -/
def bits : X86Operands → Nat
  | X86_OPERAND_16 => 16
  | X86_OPERAND_32 => 32
  | X86_OPERAND_64 => 64

/-- The flags the classifier is to leave for a list of tokens, by the rules of
the three passes. -/
def classify_tokens (ts : List (List Nat)) : Flags :=
  if ts.any is_vfp_insn then
    ⟨ISA_ARM, ARM_VFP_PRESENT, X86_FLAVOR_INTEL, X87_ABSENT, X86_OPERAND_16⟩
  else if ts.any is_arm_insn then
    ⟨ISA_ARM, ARM_VFP_ABSENT, X86_FLAVOR_INTEL, X87_ABSENT, X86_OPERAND_16⟩
  else
    ⟨ISA_X86, ARM_VFP_ABSENT,
      if ts.any is_att_register then X86_FLAVOR_ATT else X86_FLAVOR_INTEL,
      if ts.any is_x87_insn then X87_PRESENT else X87_ABSENT,
      ts.foldl (fun o t => max_operands o (implied_operands t)) X86_OPERAND_16⟩

/-! ## Comparison definitions -/

/-- The loop of `check_x86_regs_flavor_and_size` with the early `return`
taken out: the same body, run over all words. -/
def check_x86_regs_flavor_and_size_no_return :
    List (List Nat) → X86Flavor → X86Operands → X86Flavor × X86Operands
  | [], flavor, operands => (flavor, operands)
  | word :: rest, flavor, operands =>
    if word.getD 0 0 = 37 then
      match check_x86_reg (word.drop 1) operands with
      | (true, operands1) =>
        check_x86_regs_flavor_and_size_no_return rest X86_FLAVOR_ATT operands1
      | (false, operands1) =>
        check_x86_regs_flavor_and_size_no_return rest flavor (check_x86_reg word operands1).2
    else check_x86_regs_flavor_and_size_no_return rest flavor (check_x86_reg word operands).2

/-- The uppercase form of a byte: `a`..`z` become `A`..`Z`. -/
def toupper (c : Nat) : Nat :=
  if 97 ≤ c ∧ c ≤ 122 then c - 32 else c

/-! ## Facts about the primitives -/

theorem strchr_from_found (r x : List Nat) (i c : Nat) (hc : c ∉ r) (h0 : 0 ∉ r) :
    strchr_from (r ++ c :: x) i c = some (i + r.length) := by
  induction r generalizing i with
  | nil => simp [strchr_from]
  | cons a r ih =>
    simp only [List.mem_cons, not_or] at hc h0
    have h1 : ¬ a = c := fun h => hc.1 h.symm
    have h2 : ¬ a = 0 := fun h => h0.1 h.symm
    rw [List.cons_append, strchr_from, if_neg h1, if_neg h2, ih (i + 1) hc.2 h0.2,
      List.length_cons]
    congr 1; omega

theorem strchr_from_none (r x : List Nat) (i c : Nat) (hc : c ∉ r) (hc0 : c ≠ 0) :
    strchr_from (r ++ 0 :: x) i c = none := by
  induction r generalizing i with
  | nil => simp [strchr_from, hc0.symm]
  | cons a r ih =>
    simp only [List.mem_cons, not_or] at hc
    have h1 : ¬ a = c := fun h => hc.1 h.symm
    rw [List.cons_append, strchr_from, if_neg h1, ih (i + 1) hc.2]
    split <;> rfl

theorem strchr_found (p r x : List Nat) (c : Nat) (hc : c ∉ r) (h0 : 0 ∉ r) :
    strchr (p ++ (r ++ c :: x)) p.length c = some (p.length + r.length) := by
  simp [strchr, strchr_from_found r x p.length c hc h0]

theorem strchr_none (p r x : List Nat) (c : Nat) (hc : c ∉ r) (hc0 : c ≠ 0) :
    strchr (p ++ (r ++ 0 :: x)) p.length c = none := by
  simp [strchr, strchr_from_none r x p.length c hc hc0]

/-- A text with a byte `c` splits at the first `c`. -/
theorem split_first (c : Nat) (r : List Nat) (h : c ∈ r) :
    ∃ r1 r2, r = r1 ++ c :: r2 ∧ c ∉ r1 := by
  induction r with
  | nil => simp at h
  | cons a r ih =>
    by_cases hac : a = c
    · exact ⟨[], r, by simp [hac], by simp⟩
    · have hr : c ∈ r := by
        rcases List.mem_cons.1 h with h | h
        · exact absurd h.symm hac
        · exact h
      obtain ⟨r1, r2, e, hn⟩ := ih hr
      refine ⟨a :: r1, r2, by simp [e], ?_⟩
      simp only [List.mem_cons, not_or]
      exact ⟨fun h => hac h.symm, hn⟩

theorem splitOn_free (r : List Nat) (h : QUOTE ∉ r) : r.splitOn QUOTE = [r] := by
  unfold List.splitOn
  apply List.splitOnP_eq_single
  intro x hx hq
  simp only [beq_iff_eq] at hq
  exact h (hq ▸ hx)

theorem splitOn_first (r1 r2 : List Nat) (h : QUOTE ∉ r1) :
    (r1 ++ QUOTE :: r2).splitOn QUOTE = r1 :: r2.splitOn QUOTE := by
  unfold List.splitOn
  apply List.splitOnP_first
  · intro x hx hq
    simp only [beq_iff_eq] at hq
    exact h (hq ▸ hx)
  · simp

theorem splitOn_ne_nil (r : List Nat) : r.splitOn QUOTE ≠ [] :=
  List.splitOnP_ne_nil _ _

theorem strip_free (r : List Nat) (h : QUOTE ∉ r) : strip r = r := by
  simp [strip, splitOn_free r h, unquote]

theorem strip_open (r1 r2 : List Nat) (h1 : QUOTE ∉ r1) (h2 : QUOTE ∉ r2) :
    strip (r1 ++ QUOTE :: r2) = r1 ++ QUOTE :: r2 := by
  simp [strip, splitOn_first r1 r2 h1, splitOn_free r2 h2, unquote]

theorem strip_pair (r1 l r3 : List Nat) (h1 : QUOTE ∉ r1) (h2 : QUOTE ∉ l) :
    strip (r1 ++ QUOTE :: (l ++ QUOTE :: r3)) = r1 ++ strip r3 := by
  simp only [strip, splitOn_first r1 _ h1, splitOn_first l r3 h2]
  cases h : r3.splitOn QUOTE with
  | nil => exact absurd h (splitOn_ne_nil r3)
  | cons s rest => simp [unquote]

theorem memmove_cut (A M B J : List Nat) :
    memmove (A ++ (M ++ (B ++ J))) A.length (A.length + M.length) B.length =
      A ++ (B ++ (A ++ (M ++ (B ++ J))).drop (A.length + B.length)) := by
  have h1 : (A ++ (M ++ (B ++ J))).take A.length = A := List.take_left' rfl
  have h2 : (A ++ (M ++ (B ++ J))).drop (A.length + M.length) = B ++ J := by
    rw [← List.append_assoc, ← List.length_append]
    exact List.drop_left' rfl
  have h3 : (B ++ J).take B.length = B := List.take_left' rfl
  rw [memmove, h1, h2, h3, List.append_assoc]

/-- The loop of `cut_string_literals`, entered outside a literal at offset
`|P|` of the buffer `P ++ R ++ 0 :: T ++ J`, where `R` is the text up to the
first NUL, `T` the rest of the `data_len` recorded bytes and `J` the memory
behind them: the text `R` is replaced by `strip R`, what follows it moves up. -/
theorem cut_loop_strip (n : Nat) :
    ∀ R : List Nat, R.length ≤ n → 0 ∉ R → ∀ (fuel : Nat) (P T J : List Nat),
      R.count QUOTE < fuel →
      ∃ J', cut_loop fuel (P ++ (R ++ 0 :: (T ++ J))) (P.length + R.length + 1 + T.length)
              P.length none
            = some (P ++ (strip R ++ 0 :: (T ++ J')),
                    P.length + (strip R).length + 1 + T.length)
          ∧ J'.length + (strip R).length = J.length + R.length := by
  induction n with
  | zero =>
    intro R hR _ fuel P T J hf
    have hR0 : R = [] := List.length_eq_zero.1 (Nat.le_zero.1 hR)
    subst hR0
    obtain ⟨f, rfl⟩ : ∃ f, fuel = f + 1 := ⟨fuel - 1, by omega⟩
    refine ⟨J, ?_, rfl⟩
    have hs := strchr_none P [] (T ++ J) QUOTE (by simp) (by decide)
    simp only [List.nil_append] at hs
    simp [cut_loop, hs, strip_free]
  | succ n ih =>
    intro R hR h0 fuel P T J hf
    obtain ⟨f, rfl⟩ : ∃ f, fuel = f + 1 := ⟨fuel - 1, by omega⟩
    by_cases hq : QUOTE ∈ R
    · obtain ⟨R1, R2, rfl, hq1⟩ := split_first QUOTE R hq
      have h01 : 0 ∉ R1 := fun h => h0 (by simp [h])
      have h02 : 0 ∉ R2 := fun h => h0 (by simp [h])
      have hs1 := strchr_found P R1 (R2 ++ 0 :: (T ++ J)) QUOTE hq1 h01
      have hcnt : (R1 ++ QUOTE :: R2).count QUOTE = R2.count QUOTE + 1 := by
        simp [List.count_append, List.count_eq_zero_of_not_mem hq1]
      obtain ⟨f2, rfl⟩ : ∃ f2, f = f2 + 1 := ⟨f - 1, by omega⟩
      have e1 : P ++ (R1 ++ QUOTE :: R2 ++ 0 :: (T ++ J))
          = P ++ (R1 ++ QUOTE :: (R2 ++ 0 :: (T ++ J))) := by simp
      rw [cut_loop, e1, hs1]
      simp only []
      by_cases hq2 : QUOTE ∈ R2
      · obtain ⟨L, R3, rfl, hqL⟩ := split_first QUOTE R2 hq2
        have h03 : 0 ∉ R3 := fun h => h02 (by simp [h])
        have h0L : 0 ∉ L := fun h => h02 (by simp [h])
        have e2 : P ++ (R1 ++ QUOTE :: (L ++ QUOTE :: R3 ++ 0 :: (T ++ J)))
            = (P ++ (R1 ++ [QUOTE])) ++ (L ++ QUOTE :: (R3 ++ 0 :: (T ++ J))) := by simp
        have hs2 := strchr_found (P ++ (R1 ++ [QUOTE])) L (R3 ++ 0 :: (T ++ J)) QUOTE hqL h0L
        have hp : (P ++ (R1 ++ [QUOTE])).length = P.length + R1.length + 1 := by
          simp; omega
        rw [hp] at hs2
        rw [cut_loop, e2, hs2]
        simp only []
        have e3 : (P ++ (R1 ++ [QUOTE])) ++ (L ++ QUOTE :: (R3 ++ 0 :: (T ++ J)))
            = (P ++ R1) ++ ((QUOTE :: L ++ [QUOTE]) ++ ((R3 ++ 0 :: T) ++ J)) := by simp
        have hl1 : P.length + R1.length = (P ++ R1).length := by simp
        have hl2 : P.length + R1.length + 1 + L.length + 1
            = (P ++ R1).length + (QUOTE :: L ++ [QUOTE]).length := by simp; omega
        have hl3 : P.length + (R1 ++ QUOTE :: (L ++ QUOTE :: R3)).length + 1 + T.length
            - (P.length + R1.length + 1 + L.length + 1) = (R3 ++ 0 :: T).length := by
          simp; omega
        have hl4 : P.length + (R1 ++ QUOTE :: (L ++ QUOTE :: R3)).length + 1 + T.length
            - (P.length + R1.length + 1 + L.length + 1 - (P.length + R1.length))
            = (P ++ R1).length + R3.length + 1 + T.length := by
          simp; omega
        rw [hl3, hl4, e3, hl2, hl1, memmove_cut]
        have hcnt3 : R3.count QUOTE < f2 := by
          have : (L ++ QUOTE :: R3).count QUOTE = R3.count QUOTE + 1 := by
            simp [List.count_append, List.count_eq_zero_of_not_mem hqL]
          omega
        have hlen3 : R3.length ≤ n := by
          simp only [List.length_append, List.length_cons] at hR; omega
        obtain ⟨J', hJ, hJl⟩ := ih R3 hlen3 h03 f2 (P ++ R1) T
          (((P ++ R1) ++ ((QUOTE :: L ++ [QUOTE]) ++ ((R3 ++ 0 :: T) ++ J))).drop
            ((P ++ R1).length + (R3 ++ 0 :: T).length)) hcnt3
        refine ⟨J', ?_, ?_⟩
        · have e4 : (P ++ R1) ++ ((R3 ++ 0 :: T) ++
              ((P ++ R1) ++ ((QUOTE :: L ++ [QUOTE]) ++ ((R3 ++ 0 :: T) ++ J))).drop
                ((P ++ R1).length + (R3 ++ 0 :: T).length))
              = (P ++ R1) ++ (R3 ++ 0 :: (T ++
              ((P ++ R1) ++ ((QUOTE :: L ++ [QUOTE]) ++ ((R3 ++ 0 :: T) ++ J))).drop
                ((P ++ R1).length + (R3 ++ 0 :: T).length))) := by simp
          rw [e4, hJ, strip_pair R1 L R3 hq1 hqL]
          simp only [List.append_assoc, List.length_append]
          congr 2; omega
        · rw [strip_pair R1 L R3 hq1 hqL]
          simp only [List.length_append, List.length_cons, List.length_drop,
            List.length_nil] at hJl ⊢
          omega
      · have e2 : P ++ (R1 ++ QUOTE :: (R2 ++ 0 :: (T ++ J)))
            = (P ++ (R1 ++ [QUOTE])) ++ (R2 ++ 0 :: (T ++ J)) := by simp
        have hs2 := strchr_none (P ++ (R1 ++ [QUOTE])) R2 (T ++ J) QUOTE hq2 (by decide)
        have hp : (P ++ (R1 ++ [QUOTE])).length = P.length + R1.length + 1 := by
          simp; omega
        rw [hp] at hs2
        rw [cut_loop, e2, hs2]
        refine ⟨J, ?_, ?_⟩
        · simp [strip_open R1 R2 hq1 hq2]
        · simp [strip_open R1 R2 hq1 hq2]
    · refine ⟨J, ?_, ?_⟩
      · have hs := strchr_none P R (T ++ J) QUOTE hq (by decide)
        simp [cut_loop, hs, strip_free R hq]
      · simp [strip_free R hq]

/-- Induction over a text with an even number of double quotes, one literal
at a time. -/
theorem even_quotes_induction (C : List Nat → Prop)
    (base : ∀ r, QUOTE ∉ r → C r)
    (step : ∀ r1 l r3, QUOTE ∉ r1 → QUOTE ∉ l → Even (r3.count QUOTE) → C r3 →
      C (r1 ++ QUOTE :: (l ++ QUOTE :: r3))) :
    ∀ a : List Nat, Even (a.count QUOTE) → C a := by
  suffices h : ∀ n, ∀ a : List Nat, a.length ≤ n → Even (a.count QUOTE) → C a from
    fun a ha => h a.length a le_rfl ha
  intro n
  induction n with
  | zero =>
    intro a ha _
    have : a = [] := List.length_eq_zero.1 (Nat.le_zero.1 ha)
    subst this
    exact base [] (by simp)
  | succ n ih =>
    intro a ha hev
    by_cases hq : QUOTE ∈ a
    · obtain ⟨r1, r2, rfl, hq1⟩ := split_first QUOTE a hq
      have hc1 : (r1 ++ QUOTE :: r2).count QUOTE = r2.count QUOTE + 1 := by
        simp [List.count_append, List.count_eq_zero_of_not_mem hq1]
      have hq2 : QUOTE ∈ r2 := by
        by_contra hno
        rw [hc1, List.count_eq_zero_of_not_mem hno] at hev
        exact absurd hev (by decide)
      obtain ⟨l, r3, rfl, hql⟩ := split_first QUOTE r2 hq2
      have hc2 : (l ++ QUOTE :: r3).count QUOTE = r3.count QUOTE + 1 := by
        simp [List.count_append, List.count_eq_zero_of_not_mem hql]
      have hev3 : Even (r3.count QUOTE) := by
        rw [hc1, hc2] at hev
        rcases hev with ⟨k, hk⟩
        exact ⟨k - 1, by omega⟩
      have hl3 : r3.length ≤ n := by
        simp only [List.length_append, List.length_cons] at ha; omega
      exact step r1 l r3 hq1 hql hev3 (ih r3 hl3 hev3)
    · exact base a hq

theorem strip_eq_even_pieces (a : List Nat) (h : Even (a.count QUOTE)) :
    strip a = (even_pieces (a.splitOn QUOTE)).flatten := by
  refine even_quotes_induction
    (fun a => strip a = (even_pieces (a.splitOn QUOTE)).flatten) ?_ ?_ a h
  · intro r hr
    simp [strip_free r hr, splitOn_free r hr, even_pieces]
  · intro r1 l r3 h1 hl _ ih
    simp only [] at ih ⊢
    rw [strip_pair r1 l r3 h1 hl, ih, splitOn_first r1 _ h1, splitOn_first l r3 hl]
    simp [even_pieces]

theorem strip_no_quote (a : List Nat) (h : Even (a.count QUOTE)) : QUOTE ∉ strip a := by
  refine even_quotes_induction (fun a => QUOTE ∉ strip a) ?_ ?_ a h
  · intro r hr
    simpa [strip_free r hr] using hr
  · intro r1 l r3 h1 hl _ ih
    simp only [] at ih ⊢
    rw [strip_pair r1 l r3 h1 hl]
    simp [h1, ih]

theorem unquote_cons_append (a s : List Nat) (rest : List (List Nat)) :
    unquote ((a ++ s) :: rest) = a ++ unquote (s :: rest) := by
  match rest with
  | [] => simp [unquote]
  | [l] => simp [unquote]
  | l :: m :: rest => simp [unquote]

theorem strip_free_append (a x : List Nat) (h : QUOTE ∉ a) : strip (a ++ x) = a ++ strip x := by
  by_cases hx : QUOTE ∈ x
  · obtain ⟨x1, x2, rfl, hx1⟩ := split_first QUOTE x hx
    have h1 : QUOTE ∉ a ++ x1 := by simp [h, hx1]
    rw [← List.append_assoc, strip, splitOn_first (a ++ x1) x2 h1, strip,
      splitOn_first x1 x2 hx1, unquote_cons_append]
  · have h1 : QUOTE ∉ a ++ x := by simp [h, hx]
    rw [strip_free _ h1, strip_free _ hx]

/-- A text with an even number of double quotes is stripped on its own. -/
theorem strip_append (a x : List Nat) (h : Even (a.count QUOTE)) :
    strip (a ++ x) = strip a ++ strip x := by
  refine even_quotes_induction (fun a => strip (a ++ x) = strip a ++ strip x) ?_ ?_ a h
  · intro r hr
    simp [strip_free_append r x hr, strip_free r hr]
  · intro r1 l r3 h1 hl _ ih
    simp only [] at ih ⊢
    have e : r1 ++ QUOTE :: (l ++ QUOTE :: r3) ++ x
        = r1 ++ QUOTE :: (l ++ QUOTE :: (r3 ++ x)) := by simp
    rw [e, strip_pair r1 l _ h1 hl, strip_pair r1 l r3 h1 hl, ih, List.append_assoc]

/-- A text with a double quote splits at its last double quote. -/
theorem split_last (r : List Nat) (h : QUOTE ∈ r) :
    ∃ p s, r = p ++ QUOTE :: s ∧ QUOTE ∉ s := by
  have hr : QUOTE ∈ r.reverse := List.mem_reverse.2 h
  obtain ⟨r1, r2, e, hn⟩ := split_first QUOTE r.reverse hr
  refine ⟨r2.reverse, r1.reverse, ?_, by simpa using hn⟩
  have := congrArg List.reverse e
  simpa using this

/-- The function `cut_string_literals` on the buffer main hands to it: the text
up to the first NUL of the input is stripped, the recorded bytes behind it
are kept. -/
theorem cut_string_literals_eq (R T J : List Nat) (h0 : 0 ∉ R) :
    ∃ J', cut_string_literals (R ++ 0 :: (T ++ J)) (R.length + 1 + T.length)
            = some (strip R ++ 0 :: (T ++ J'), (strip R).length + 1 + T.length)
          ∧ J'.length + (strip R).length = J.length + R.length := by
  have hc : R.count QUOTE < (R ++ 0 :: (T ++ J)).length + 1 := by
    have := List.count_le_length QUOTE R
    simp only [List.length_append, List.length_cons]
    omega
  obtain ⟨J', hJ, hl⟩ := cut_loop_strip R.length R le_rfl h0 _ [] T J hc
  refine ⟨J', ?_, hl⟩
  simpa [cut_string_literals] using hJ

/-! ## Facts about `tokenize` -/

theorem getD_split (A X : List Nat) : (A ++ X).getD A.length 0 = X.headD 0 := by
  induction A with
  | nil => cases X <;> rfl
  | cons a A ih => simpa using ih

theorem set_split (A X : List Nat) (x v : Nat) :
    (A ++ x :: X).set A.length v = A ++ v :: X := by
  induction A with
  | nil => rfl
  | cons a A ih => simp [List.set, ih]

theorem strspn_append (D X : List Nat) (hD : ∀ x ∈ D, x ∈ delimiters) :
    strspn (D ++ X) = D.length + strspn X := by
  induction D with
  | nil => simp
  | cons d D ih =>
    have hd : d ∈ delimiters := hD d (by simp)
    have := ih (fun x hx => hD x (by simp [hx]))
    rw [List.cons_append, strspn, if_pos hd, this, List.length_cons]
    omega

theorem strspn_stop (X : List Nat) (h : X.headD 0 ∉ delimiters) : strspn X = 0 := by
  cases X with
  | nil => rfl
  | cons x X => simp only [List.headD_cons] at h; simp [strspn, h]

theorem strcspn_append (t X : List Nat) (ht : ∀ x ∈ t, x ≠ 0 ∧ x ∉ delimiters) :
    strcspn (t ++ X) = t.length + strcspn X := by
  induction t with
  | nil => simp
  | cons a t ih =>
    have ha := ht a (by simp)
    have := ih (fun x hx => ht x (by simp [hx]))
    rw [List.cons_append, strcspn, if_neg (by simp [ha.1, ha.2]), this, List.length_cons]
    omega

theorem strcspn_stop (X : List Nat) (h : X.headD 0 = 0 ∨ X.headD 0 ∈ delimiters) :
    strcspn X = 0 := by
  cases X with
  | nil => rfl
  | cons x X => simp only [List.headD_cons] at h; simp [strcspn, h]

theorem zero_not_delimiter : (0 : Nat) ∉ delimiters := by decide

theorem strtok_r_none (Q D T : List Nat) (hD : ∀ x ∈ D, x ∈ delimiters)
    (hT : T.headD 0 = 0) : strtok_r (Q ++ (D ++ T)) Q.length = none := by
  have h1 : strspn (D ++ T) = D.length := by
    rw [strspn_append D T hD, strspn_stop T (by rw [hT]; exact zero_not_delimiter)]; rfl
  have h2 : (Q ++ (D ++ T)).getD (Q.length + D.length) 0 = 0 := by
    rw [← List.append_assoc, ← List.length_append, getD_split, hT]
  simp only [strtok_r, List.drop_left, h1, h2, if_true]

theorem strtok_r_last (Q D t T : List Nat) (hD : ∀ x ∈ D, x ∈ delimiters)
    (ht : ∀ x ∈ t, x ≠ 0 ∧ x ∉ delimiters) (hne : t ≠ []) (hT : T.headD 0 = 0) :
    strtok_r (Q ++ (D ++ (t ++ T))) Q.length
      = some (Q.length + D.length, Q ++ (D ++ (t ++ T)), Q.length + D.length + t.length) := by
  obtain ⟨a, t1, rfl⟩ := List.exists_cons_of_ne_nil hne
  have ha := ht a (by simp)
  have h1 : strspn (D ++ (a :: t1 ++ T)) = D.length := by
    rw [strspn_append D _ hD, strspn_stop _ (by simpa using ha.2)]; rfl
  have h2 : (Q ++ (D ++ (a :: t1 ++ T))).getD (Q.length + D.length) 0 = a := by
    rw [← List.append_assoc, ← List.length_append, getD_split]; rfl
  have h3 : (Q ++ (D ++ (a :: t1 ++ T))).drop (Q.length + D.length) = a :: t1 ++ T := by
    rw [← List.append_assoc, ← List.length_append]; exact List.drop_left' rfl
  have h4 : strcspn (a :: t1 ++ T) = (a :: t1).length := by
    rw [strcspn_append _ T ht, strcspn_stop T (Or.inl hT)]; rfl
  have h5 : (Q ++ (D ++ (a :: t1 ++ T))).getD (Q.length + D.length + (a :: t1).length) 0
      = 0 := by
    have e : Q ++ (D ++ (a :: t1 ++ T)) = (Q ++ D ++ (a :: t1)) ++ T := by simp
    have l : Q.length + D.length + (a :: t1).length = (Q ++ D ++ (a :: t1)).length := by
      simp only [List.length_append]
    rw [e, l, getD_split, hT]
  simp only [strtok_r, List.drop_left, h1, h2, h3, h4, h5, ha.1, if_false, if_true]

theorem strtok_r_mid (Q D t X : List Nat) (d : Nat) (hD : ∀ x ∈ D, x ∈ delimiters)
    (ht : ∀ x ∈ t, x ≠ 0 ∧ x ∉ delimiters) (hne : t ≠ []) (hd : d ∈ delimiters) :
    strtok_r (Q ++ (D ++ (t ++ d :: X))) Q.length
      = some (Q.length + D.length, Q ++ (D ++ (t ++ 0 :: X)),
          Q.length + D.length + t.length + 1) := by
  obtain ⟨a, t1, rfl⟩ := List.exists_cons_of_ne_nil hne
  have ha := ht a (by simp)
  have hd0 : d ≠ 0 := fun h => zero_not_delimiter (h ▸ hd)
  have h1 : strspn (D ++ (a :: t1 ++ d :: X)) = D.length := by
    rw [strspn_append D _ hD, strspn_stop _ (by simpa using ha.2)]; rfl
  have h2 : (Q ++ (D ++ (a :: t1 ++ d :: X))).getD (Q.length + D.length) 0 = a := by
    rw [← List.append_assoc, ← List.length_append, getD_split]; rfl
  have h3 : (Q ++ (D ++ (a :: t1 ++ d :: X))).drop (Q.length + D.length)
      = a :: t1 ++ d :: X := by
    rw [← List.append_assoc, ← List.length_append]; exact List.drop_left' rfl
  have h4 : strcspn (a :: t1 ++ d :: X) = (a :: t1).length := by
    rw [strcspn_append _ _ ht, strcspn_stop _ (Or.inr (by simpa using hd))]; rfl
  have e : Q ++ (D ++ (a :: t1 ++ d :: X)) = (Q ++ D ++ (a :: t1)) ++ d :: X := by simp
  have l : Q.length + D.length + (a :: t1).length = (Q ++ D ++ (a :: t1)).length := by
    simp only [List.length_append]
  have h5 : (Q ++ (D ++ (a :: t1 ++ d :: X))).getD (Q.length + D.length + (a :: t1).length) 0
      = d := by
    rw [e, l, getD_split]; rfl
  have h6 : (Q ++ (D ++ (a :: t1 ++ d :: X))).set (Q.length + D.length + (a :: t1).length) 0
      = Q ++ (D ++ (a :: t1 ++ 0 :: X)) := by
    rw [e, l, set_split]; simp
  simp only [strtok_r, List.drop_left, h1, h2, h3, h4, h5, h6, ha.1, hd0, if_false]

theorem c_str_append (t X : List Nat) (h0 : 0 ∉ t) (hX : X.headD 0 = 0) :
    c_str (t ++ X) = t := by
  induction t with
  | nil =>
    cases X with
    | nil => rfl
    | cons x X => simp only [List.headD_cons] at hX; simp [c_str, hX]
  | cons a t ih =>
    simp only [List.mem_cons, not_or] at h0
    have ha : a ≠ 0 := fun h => h0.1 h.symm
    have := ih h0.2
    simp only [c_str] at this ⊢
    simp [List.takeWhile_cons, ha, this]

/-- A text splits into its longest prefix of bytes with a property and a rest
that does not start with such a byte. -/
theorem span_split (p : Nat → Prop) [DecidablePred p] (R : List Nat) :
    ∃ D X, R = D ++ X ∧ (∀ x ∈ D, p x) ∧ (∀ y Y, X = y :: Y → ¬ p y) := by
  induction R with
  | nil => exact ⟨[], [], rfl, by simp, by simp⟩
  | cons a R ih =>
    by_cases ha : p a
    · obtain ⟨D, X, e, hD, hX⟩ := ih
      refine ⟨a :: D, X, by simp [e], ?_, hX⟩
      intro x hx
      rcases List.mem_cons.1 hx with h | h
      · exact h ▸ ha
      · exact hD x h
    · refine ⟨[], a :: R, rfl, by simp, ?_⟩
      intro y Y e
      cases e
      exact ha

theorem runs_nil : runs [] = [] := by
  simp [runs]

theorem runs_delims (D X : List Nat) (hD : ∀ x ∈ D, x ∈ delimiters) :
    runs (D ++ X) = runs X := by
  induction D with
  | nil => rfl
  | cons d D ih =>
    have hd : is_delimiter d = true := by simpa [is_delimiter] using hD d (by simp)
    have := ih (fun x hx => hD x (by simp [hx]))
    simp only [runs] at this ⊢
    simp [List.splitOnP_cons, hd, this]

theorem runs_token_mid (t X : List Nat) (d : Nat) (ht : ∀ x ∈ t, x ∉ delimiters)
    (hne : t ≠ []) (hd : d ∈ delimiters) : runs (t ++ d :: X) = t :: runs X := by
  have h1 : ∀ x ∈ t, ¬ is_delimiter x = true := by
    intro x hx; simpa [is_delimiter] using ht x hx
  have h2 : is_delimiter d = true := by simpa [is_delimiter] using hd
  simp only [runs]
  rw [List.splitOnP_first is_delimiter t h1 d h2 X]
  simp [hne]

theorem runs_token_last (t : List Nat) (ht : ∀ x ∈ t, x ∉ delimiters) (hne : t ≠ []) :
    runs t = [t] := by
  have h1 : ∀ x ∈ t, ¬ is_delimiter x = true := by
    intro x hx; simpa [is_delimiter] using ht x hx
  simp only [runs]
  rw [List.splitOnP_eq_single is_delimiter t h1]
  simp [hne]

/-- The loop of `tokenize`, entered with the saved pointer at offset `|Q|` of
the buffer `Q ++ R ++ T`, where `R` is NUL-free and `T` is empty or starts with
a NUL: only bytes of `R` are overwritten, and the pushed pointers are, in
increasing order, the starts of the maximal runs of non-delimiters of `R`,
each terminated by a NUL in the final buffer. -/
theorem tokenize_loop_runs (n : Nat) :
    ∀ R : List Nat, R.length ≤ n → 0 ∉ R → ∀ (fuel : Nat) (Q T ws : List Nat),
      R.length < fuel → T.headD 0 = 0 →
      ∃ R' offs, tokenize_loop fuel (Q ++ (R ++ T)) Q.length ws
            = some (Q ++ (R' ++ T), ws ++ offs)
          ∧ R'.length = R.length
          ∧ offs.map (fun w => c_str ((Q ++ (R' ++ T)).drop w)) = runs R
          ∧ (∀ w ∈ offs, Q.length ≤ w)
          ∧ offs.Pairwise (fun a b => a < b) := by
  induction n with
  | zero =>
    intro R hR _ fuel Q T ws hf hT
    have hR0 : R = [] := List.length_eq_zero.1 (Nat.le_zero.1 hR)
    subst hR0
    obtain ⟨f, rfl⟩ : ∃ f, fuel = f + 1 := ⟨fuel - 1, by omega⟩
    refine ⟨[], [], ?_, rfl, by simp [runs_nil], by simp, by simp⟩
    have := strtok_r_none Q [] T (by simp) hT
    rw [tokenize_loop, this]
    simp
  | succ n ih =>
    intro R hR h0 fuel Q T ws hf hT
    obtain ⟨f, rfl⟩ : ∃ f, fuel = f + 1 := ⟨fuel - 1, by omega⟩
    obtain ⟨D, X, rfl, hD, hX⟩ := span_split (fun x => x ∈ delimiters) R
    obtain ⟨t, Y, rfl, ht, hY⟩ := span_split (fun x => x ∉ delimiters) X
    have h0t : 0 ∉ t := fun h => h0 (by simp [h])
    have ht' : ∀ x ∈ t, x ≠ 0 ∧ x ∉ delimiters :=
      fun x hx => ⟨fun h => h0t (h ▸ hx), ht x hx⟩
    by_cases hne : t = []
    · subst hne
      have hYnil : Y = [] := by
        cases Y with
        | nil => rfl
        | cons y Y =>
          exact absurd (hY y Y rfl) (by simpa using hX y Y (by simp))
      subst hYnil
      refine ⟨D, [], ?_, by simp, ?_, by simp, by simp⟩
      · have := strtok_r_none Q D T hD hT
        simp only [List.append_nil] at this ⊢
        rw [tokenize_loop, this]
      · have := runs_delims D [] hD
        simp only [List.append_nil] at this ⊢
        simp [this, runs_nil]
    · cases Y with
      | nil =>
        have hs := strtok_r_last Q D t T hD ht' hne hT
        obtain ⟨f2, rfl⟩ : ∃ f2, f = f2 + 1 := by
          have : 0 < t.length := List.length_pos.2 hne
          simp only [List.length_append, List.append_nil] at hf
          exact ⟨f - 1, by omega⟩
        have hs2 := strtok_r_none (Q ++ (D ++ t)) [] T (by simp) hT
        simp only [List.nil_append, List.length_append] at hs2
        refine ⟨D ++ t, [Q.length + D.length], ?_, by simp, ?_, by simp, by simp⟩
        · simp only [List.append_nil, List.append_assoc]
          rw [tokenize_loop, hs]
          simp only []
          have e : Q ++ (D ++ (t ++ T)) = (Q ++ (D ++ t)) ++ T := by simp
          have l : Q.length + D.length + t.length = Q.length + (D.length + t.length) := by
            omega
          rw [tokenize_loop, e, l, hs2]
        · have e : (Q ++ (D ++ t ++ T)).drop (Q.length + D.length) = t ++ T := by
            have e1 : Q ++ (D ++ t ++ T) = (Q ++ D) ++ (t ++ T) := by simp
            rw [e1, ← List.length_append]; exact List.drop_left' rfl
          simp only [List.map_cons, List.map_nil, e, List.append_nil]
          rw [c_str_append t T h0t hT, runs_delims D t hD, runs_token_last t ht hne]
      | cons d Y =>
        have hd : d ∈ delimiters := by
          have := hY d Y rfl
          simpa using this
        have hs := strtok_r_mid Q D t (Y ++ T) d hD ht' hne hd
        have h0Y : 0 ∉ Y := fun h => h0 (by simp [h])
        have hlenY : Y.length ≤ n := by
          simp only [List.length_append, List.length_cons] at hR; omega
        have hfY : Y.length < f := by
          simp only [List.length_append, List.length_cons] at hf; omega
        obtain ⟨Y', offs, hrec, hlen, hviews, hge, hsorted⟩ :=
          ih Y hlenY h0Y f (Q ++ (D ++ (t ++ [0]))) T (ws ++ [Q.length + D.length]) hfY hT
        have hQl : (Q ++ (D ++ (t ++ [0]))).length = Q.length + D.length + t.length + 1 := by
          simp only [List.length_append, List.length_cons, List.length_nil]; omega
        rw [hQl] at hrec hge
        refine ⟨D ++ (t ++ 0 :: Y'), (Q.length + D.length) :: offs, ?_, ?_, ?_, ?_, ?_⟩
        · have e1 : Q ++ (D ++ (t ++ d :: Y) ++ T) = Q ++ (D ++ (t ++ d :: (Y ++ T))) := by
            simp
          have e2 : Q ++ (D ++ (t ++ 0 :: (Y ++ T))) = Q ++ (D ++ (t ++ [0])) ++ (Y ++ T) := by
            simp
          rw [tokenize_loop, e1, hs]
          simp only []
          rw [e2, hrec]
          simp
        · simp only [List.length_append, List.length_cons]; omega
        · have e3 : Q ++ (D ++ (t ++ 0 :: Y') ++ T) = Q ++ (D ++ (t ++ [0])) ++ (Y' ++ T) := by
            simp
          have e4 : (Q ++ (D ++ (t ++ [0])) ++ (Y' ++ T)).drop (Q.length + D.length)
              = t ++ 0 :: (Y' ++ T) := by
            have e5 : Q ++ (D ++ (t ++ [0])) ++ (Y' ++ T) = (Q ++ D) ++ (t ++ 0 :: (Y' ++ T)) := by
              simp
            rw [e5, ← List.length_append]; exact List.drop_left' rfl
          rw [e3, List.map_cons, hviews, e4, c_str_append t (0 :: (Y' ++ T)) h0t rfl, runs_delims D _ hD,
            runs_token_mid t Y d ht hne hd]
        · intro w hw
          rcases List.mem_cons.1 hw with h | h
          · omega
          · have := hge w h; omega
        · refine List.pairwise_cons.2 ⟨?_, hsorted⟩
          intro w hw
          have := hge w hw; omega

/-- The function `tokenize` on a buffer `R ++ T` whose text `R` is NUL-free and
is followed by a NUL or by nothing. -/
theorem tokenize_eq (R T : List Nat) (h0 : 0 ∉ R) (hT : T.headD 0 = 0) :
    ∃ R' offs, tokenize (R ++ T) = some (R' ++ T, offs)
        ∧ R'.length = R.length
        ∧ (word_views (R' ++ T) offs).map c_str = runs R
        ∧ offs.Pairwise (fun a b => a < b) := by
  obtain ⟨R', offs, h, hl, hv, _, hs⟩ :=
    tokenize_loop_runs R.length R le_rfl h0 ((R ++ T).length + 1) [] T []
      (by simp only [List.length_append]; omega) hT
  refine ⟨R', offs, ?_, hl, ?_, hs⟩
  · simpa [tokenize] using h
  · simpa [word_views, List.map_map, Function.comp_def] using hv

/-! ## Facts about `lowercase` and the text main hands on -/

theorem tolower_eq_zero (c : Nat) : tolower c = 0 ↔ c = 0 := by
  unfold tolower
  split <;> omega

theorem zero_not_mem_map_tolower (R : List Nat) (h : 0 ∉ R) : 0 ∉ R.map tolower := by
  intro hm
  obtain ⟨x, hx, e⟩ := List.mem_map.1 hm
  exact h (((tolower_eq_zero x).1 e) ▸ hx)

theorem lowercase_eq (R T J : List Nat) :
    lowercase (R ++ 0 :: (T ++ J)) (R.length + 1 + T.length)
      = R.map tolower ++ 0 :: (T.map tolower ++ J) := by
  have e : R ++ 0 :: (T ++ J) = (R ++ 0 :: T) ++ J := by simp
  have l : R.length + 1 + T.length = (R ++ 0 :: T).length := by
    simp only [List.length_append, List.length_cons]; omega
  rw [lowercase, e, l, List.take_left' rfl, List.drop_left' rfl]
  simp [tolower]

theorem zero_not_mem_c_str (w : List Nat) : 0 ∉ c_str w := by
  intro h
  have := List.mem_takeWhile_imp h
  simp at this

/-- The bytes main reads, with the NUL it appends, are the text before the
first NUL, a NUL, and the rest of the recorded bytes. -/
theorem input_split (input : List Nat) :
    ∃ T, input ++ [0] = c_str input ++ 0 :: T
      ∧ input.length + 1 = (c_str input).length + 1 + T.length := by
  induction input with
  | nil => exact ⟨[], rfl, rfl⟩
  | cons a input ih =>
    by_cases ha : a = 0
    · subst ha
      refine ⟨input ++ [0], by simp [c_str], ?_⟩
      simp [c_str]
      omega
    · obtain ⟨T, e, l⟩ := ih
      refine ⟨T, ?_, ?_⟩
      · simp only [c_str] at e ⊢
        simp [List.takeWhile_cons, ha, e]
      · simp only [c_str] at l ⊢
        simp only [List.takeWhile_cons, bne_iff_ne, ne_eq, ha, not_false_eq_true, decide_True,
          if_true, List.length_cons]
        omega

/-- Induction over a text, one string literal at a time. -/
theorem quotes_induction (C : List Nat → Prop)
    (base : ∀ r, QUOTE ∉ r → C r)
    (last : ∀ r1 r2, QUOTE ∉ r1 → QUOTE ∉ r2 → C (r1 ++ QUOTE :: r2))
    (step : ∀ r1 l r3, QUOTE ∉ r1 → QUOTE ∉ l → C r3 →
      C (r1 ++ QUOTE :: (l ++ QUOTE :: r3))) :
    ∀ a : List Nat, C a := by
  suffices h : ∀ n, ∀ a : List Nat, a.length ≤ n → C a from fun a => h a.length a le_rfl
  intro n
  induction n with
  | zero =>
    intro a ha
    have : a = [] := List.length_eq_zero.1 (Nat.le_zero.1 ha)
    subst this
    exact base [] (by simp)
  | succ n ih =>
    intro a ha
    by_cases hq : QUOTE ∈ a
    · obtain ⟨r1, r2, rfl, hq1⟩ := split_first QUOTE a hq
      by_cases hq2 : QUOTE ∈ r2
      · obtain ⟨l, r3, rfl, hql⟩ := split_first QUOTE r2 hq2
        have hl3 : r3.length ≤ n := by
          simp only [List.length_append, List.length_cons] at ha; omega
        exact step r1 l r3 hq1 hql (ih r3 hl3)
      · exact last r1 r2 hq1 hq2
    · exact base a hq

theorem mem_of_mem_strip (a : List Nat) : ∀ x ∈ strip a, x ∈ a := by
  refine quotes_induction (fun a => ∀ x ∈ strip a, x ∈ a) ?_ ?_ ?_ a
  · intro r hr x hx
    rwa [strip_free r hr] at hx
  · intro r1 r2 h1 h2 x hx
    rwa [strip_open r1 r2 h1 h2] at hx
  · intro r1 l r3 h1 hl ih x hx
    rw [strip_pair r1 l r3 h1 hl] at hx
    rcases List.mem_append.1 hx with h | h
    · simp [h]
    · have := ih x h
      simp [this]

theorem length_strip_le (a : List Nat) : (strip a).length ≤ a.length := by
  refine quotes_induction (fun a => (strip a).length ≤ a.length) ?_ ?_ ?_ a
  · intro r hr
    rw [strip_free r hr]
  · intro r1 r2 h1 h2
    rw [strip_open r1 r2 h1 h2]
  · intro r1 l r3 h1 hl ih
    rw [strip_pair r1 l r3 h1 hl]
    simp only [List.length_append, List.length_cons]
    simp only [] at ih
    omega

/-- The tokens of the specification: the maximal runs of non-delimiters of the
lowercased, literal-free text before the first NUL of the input. -/
theorem main_words_eq (input junk : List Nat) :
    ∃ ws, main_words input junk = some ws
      ∧ ws.map c_str = runs ((strip (c_str input)).map tolower) := by
  obtain ⟨T, e, l⟩ := input_split input
  have e1 : input ++ 0 :: junk = c_str input ++ 0 :: (T ++ junk) := by
    have : input ++ 0 :: junk = (input ++ [0]) ++ junk := by simp
    rw [this, e]; simp
  obtain ⟨J', hcut, _⟩ := cut_string_literals_eq (c_str input) T junk (zero_not_mem_c_str input)
  have h0s : 0 ∉ strip (c_str input) :=
    fun h => zero_not_mem_c_str input (mem_of_mem_strip _ 0 h)
  obtain ⟨R', offs, htok, _, hviews, _⟩ :=
    tokenize_eq ((strip (c_str input)).map tolower) (0 :: (T.map tolower ++ J'))
      (zero_not_mem_map_tolower _ h0s) rfl
  refine ⟨word_views (R' ++ 0 :: (T.map tolower ++ J')) offs, ?_, hviews⟩
  rw [main_words, e1, l, hcut]
  simp only []
  rw [lowercase_eq, htok]

/-! ## The classifier reads a word only up to its NUL -/

theorem c_str_nil : c_str [] = [] := rfl

theorem c_str_cons_zero (w : List Nat) : c_str (0 :: w) = [] := by
  simp [c_str]

theorem c_str_cons_ne (a : Nat) (w : List Nat) (h : a ≠ 0) :
    c_str (a :: w) = a :: c_str w := by
  simp [c_str, List.takeWhile_cons, h]

theorem c_str_idem (w : List Nat) : c_str (c_str w) = c_str w := by
  induction w with
  | nil => rfl
  | cons a w ih =>
    by_cases ha : a = 0
    · subst ha; rw [c_str_cons_zero]; rfl
    · rw [c_str_cons_ne a w ha, c_str_cons_ne a _ ha, ih]

theorem str_eq_c_str (w lit : List Nat) : str_eq (c_str w) lit = str_eq w lit := by
  simp [str_eq, c_str_idem]

theorem getD_zero_c_str (w : List Nat) : (c_str w).getD 0 0 = w.getD 0 0 := by
  rcases w with _ | ⟨a, w⟩
  · rfl
  by_cases ha : a = 0
  · subst ha; rw [c_str_cons_zero]; rfl
  · rw [c_str_cons_ne a w ha]; rfl

/-- The bytes behind the terminating NUL of a word, which `check_x86_reg`
reads for a word shorter than three bytes, do not change its result. -/
theorem check_x86_reg_c_str (w : List Nat) (ops : X86Operands) :
    check_x86_reg (c_str w) ops = check_x86_reg w ops := by
  rcases w with _ | ⟨a, w⟩
  · rfl
  by_cases ha : a = 0
  · subst ha
    rw [c_str_cons_zero]
    simp [check_x86_reg, check_x86_gp_reg]
  rw [c_str_cons_ne a _ ha]
  rcases w with _ | ⟨b, w⟩
  · rfl
  by_cases hb : b = 0
  · subst hb
    rw [c_str_cons_zero]
    simp [check_x86_reg, check_x86_gp_reg]
  rw [c_str_cons_ne b _ hb]
  rcases w with _ | ⟨c, w⟩
  · rfl
  by_cases hc : c = 0
  · subst hc
    rw [c_str_cons_zero]
    simp [check_x86_reg, check_x86_gp_reg]
  rw [c_str_cons_ne c _ hc]
  rcases w with _ | ⟨d, w⟩
  · rfl
  by_cases hd : d = 0
  · subst hd
    rw [c_str_cons_zero]
    simp [check_x86_reg, check_x86_gp_reg]
  rw [c_str_cons_ne d _ hd]
  simp [check_x86_reg, check_x86_gp_reg]

theorem check_x86_reg_drop_c_str (w : List Nat) (ops : X86Operands) (h : w.getD 0 0 = 37) :
    check_x86_reg ((c_str w).drop 1) ops = check_x86_reg (w.drop 1) ops := by
  rcases w with _ | ⟨a, w⟩
  · simp at h
  · have ha : a = 37 := by simpa using h
    subst ha
    rw [c_str_cons_ne 37 w (by decide)]
    exact check_x86_reg_c_str w ops

theorem check_arm_and_vfp_insns_c_str (ws : List (List Nat)) (isa : Isa) (vfp : ArmVfp) :
    check_arm_and_vfp_insns (ws.map c_str) isa vfp = check_arm_and_vfp_insns ws isa vfp := by
  induction ws generalizing isa vfp with
  | nil => rfl
  | cons w ws ih =>
    simp only [List.map_cons, check_arm_and_vfp_insns, str_eq_c_str, ih]

theorem check_x86_regs_flavor_and_size_c_str (ws : List (List Nat)) (fl : X86Flavor)
    (ops : X86Operands) :
    check_x86_regs_flavor_and_size (ws.map c_str) fl ops
      = check_x86_regs_flavor_and_size ws fl ops := by
  induction ws generalizing fl ops with
  | nil => rfl
  | cons w ws ih =>
    simp only [List.map_cons, check_x86_regs_flavor_and_size, getD_zero_c_str,
      check_x86_reg_c_str, ih]
    by_cases h : w.getD 0 0 = 37
    · simp only [h, if_true, check_x86_reg_drop_c_str w _ h]
    · simp only [h, if_false]

theorem check_x87_commands_c_str (ws : List (List Nat)) (x87 : X87) :
    check_x87_commands (ws.map c_str) x87 = check_x87_commands ws x87 := by
  induction ws with
  | nil => rfl
  | cons w ws ih =>
    simp only [List.map_cons, check_x87_commands, str_eq_c_str, ih]

theorem classify_c_str (ws : List (List Nat)) (g : Flags) :
    classify (ws.map c_str) g = classify ws g := by
  simp only [classify, check_arm_and_vfp_insns_c_str, check_x86_regs_flavor_and_size_c_str,
    check_x87_commands_c_str]

/-- The program always prints a line, and the line is the classification of
the tokens of the input. -/
theorem main_eq (input junk : List Nat) :
    main_tokens input junk = some (spec_tokens input)
      ∧ main_flags input junk = some (classify (spec_tokens input) initial_flags)
      ∧ main input junk = some (emit (classify (spec_tokens input) initial_flags)) := by
  obtain ⟨ws, h, hv⟩ := main_words_eq input junk
  simp only [main, main_flags, main_tokens, h, Option.map_some', spec_tokens, ← hv,
    classify_c_str, and_self]

/-! ## Further facts about the specification functions -/

theorem c_str_append_left (t X : List Nat) (h0 : 0 ∉ t) : c_str (t ++ X) = t ++ c_str X := by
  induction t with
  | nil => rfl
  | cons a t ih =>
    simp only [List.mem_cons, not_or] at h0
    have ha : a ≠ 0 := fun h => h0.1 h.symm
    rw [List.cons_append, c_str_cons_ne a _ ha, ih h0.2, List.cons_append]

theorem c_str_of_nul_free (t : List Nat) (h0 : 0 ∉ t) : c_str t = t := by
  have := c_str_append_left t [] h0
  simpa [c_str_nil] using this

theorem c_str_split (w : List Nat) : ∃ T, w = c_str w ++ T ∧ T.headD 0 = 0 := by
  induction w with
  | nil => exact ⟨[], rfl, rfl⟩
  | cons a w ih =>
    by_cases ha : a = 0
    · subst ha
      exact ⟨0 :: w, by rw [c_str_cons_zero]; rfl, rfl⟩
    · obtain ⟨T, e, hT⟩ := ih
      refine ⟨T, ?_, hT⟩
      rw [c_str_cons_ne a w ha, List.cons_append, ← e]

theorem length_pieces (a : List Nat) (h : Even (a.count QUOTE)) :
    a.length = (even_pieces (a.splitOn QUOTE)).flatten.length
      + (odd_pieces (a.splitOn QUOTE)).flatten.length + a.count QUOTE := by
  refine even_quotes_induction
    (fun a => a.length = (even_pieces (a.splitOn QUOTE)).flatten.length
      + (odd_pieces (a.splitOn QUOTE)).flatten.length + a.count QUOTE) ?_ ?_ a h
  · intro r hr
    simp [splitOn_free r hr, even_pieces, odd_pieces, List.count_eq_zero_of_not_mem hr]
  · intro r1 l r3 h1 hl _ ih
    simp only [] at ih ⊢
    rw [splitOn_first r1 _ h1, splitOn_first l r3 hl]
    simp only [even_pieces, odd_pieces, List.flatten_cons, List.length_append,
      List.length_cons, List.count_append, List.count_cons_self,
      List.count_eq_zero_of_not_mem h1, List.count_eq_zero_of_not_mem hl]
    omega

theorem splitOnP_pieces_free (p : Nat → Bool) (xs : List Nat) :
    ∀ t ∈ xs.splitOnP p, ∀ c ∈ t, ¬ p c = true := by
  induction xs with
  | nil => simp
  | cons x xs ih =>
    rw [List.splitOnP_cons]
    by_cases hx : p x = true
    · simp only [hx, if_true, List.mem_cons]
      rintro t (rfl | ht) c hc
      · simp at hc
      · exact ih t ht c hc
    · simp only [hx, if_false]
      cases h : xs.splitOnP p with
      | nil => exact absurd h (List.splitOnP_ne_nil p xs)
      | cons hd tl =>
        rw [h] at ih
        rw [List.modifyHead_cons]
        intro t ht c hc
        rcases List.mem_cons.1 ht with h2 | ht
        · rw [h2] at hc
          rcases List.mem_cons.1 hc with h1 | hc
          · rw [h1]; exact hx
          · exact ih hd (by simp) c hc
        · exact ih t (by simp [ht]) c hc

theorem flatten_splitOnP (p : Nat → Bool) (xs : List Nat) :
    (xs.splitOnP p).flatten = xs.filter (fun c => !p c) := by
  induction xs with
  | nil => simp
  | cons x xs ih =>
    rw [List.splitOnP_cons]
    by_cases hx : p x = true
    · simp [hx, ih]
    · cases h : xs.splitOnP p with
      | nil => exact absurd h (List.splitOnP_ne_nil p xs)
      | cons hd tl =>
        rw [h] at ih
        simp only [hx, if_false, List.modifyHead_cons, List.flatten_cons, List.cons_append,
          List.filter_cons, Bool.not_eq_true, Bool.not_eq_true'] at ih ⊢
        simp [hx, ← ih]

theorem flatten_filter_nonempty (L : List (List Nat)) :
    (L.filter (fun t => !t.isEmpty)).flatten = L.flatten := by
  induction L with
  | nil => rfl
  | cons t L ih =>
    cases t with
    | nil => simpa [List.filter_cons] using ih
    | cons a t => simp [List.filter_cons, ih]

theorem flatten_runs (text : List Nat) :
    (runs text).flatten = text.filter (fun c => !is_delimiter c) := by
  rw [runs, flatten_filter_nonempty, flatten_splitOnP]

theorem runs_tokens (text : List Nat) :
    ∀ t ∈ runs text, t ≠ [] ∧ ∀ c ∈ t, c ∉ delimiters := by
  intro t ht
  obtain ⟨h1, h2⟩ := List.mem_filter.1 ht
  refine ⟨by simpa using h2, ?_⟩
  intro c hc
  simpa [is_delimiter] using splitOnP_pieces_free is_delimiter text t h1 c hc

/-! ## Facts about the classifier -/

theorem gp_reg_names_eq : gp_reg_names =
    [[97, 120], [98, 120], [99, 120], [100, 120], [115, 105], [100, 105], [115, 112],
      [98, 112]] := by decide

theorem e_reg_names_eq : e_reg_names =
    [[101, 97, 120], [101, 98, 120], [101, 99, 120], [101, 100, 120], [101, 115, 105],
      [101, 100, 105], [101, 115, 112], [101, 98, 112]] := by decide

theorem r_reg_names_eq : r_reg_names =
    [[114, 97, 120], [114, 98, 120], [114, 99, 120], [114, 100, 120], [114, 115, 105],
      [114, 100, 105], [114, 115, 112], [114, 98, 112]] := by decide

theorem segment_reg_names_eq : segment_reg_names = [[99, 115], [100, 115], [115, 115]] := by
  decide

theorem max_operands_16 (ops : X86Operands) : max_operands ops X86_OPERAND_16 = ops := by
  cases ops <;> rfl

theorem max_operands_64 (ops : X86Operands) : max_operands X86_OPERAND_64 ops = X86_OPERAND_64 := by
  cases ops <;> rfl

theorem bits_max_operands (a b : X86Operands) :
    bits (max_operands a b) = max (bits a) (bits b) := by
  cases a <;> cases b <;> rfl

/-- On a NUL-free token `check_x86_reg` answers whether the token is one of
the 27 register names. -/
theorem check_x86_reg_fst (t : List Nat) (ops : X86Operands) (h0 : 0 ∉ t) :
    (check_x86_reg t ops).1 = decide (t ∈ x86_reg_names) := by
  rw [x86_reg_names, segment_reg_names_eq, gp_reg_names_eq, e_reg_names_eq, r_reg_names_eq]
  rcases t with _ | ⟨a, _ | ⟨b, _ | ⟨c, _ | ⟨d, t⟩⟩⟩⟩
  · simp [check_x86_reg, check_x86_gp_reg]
  · simp [check_x86_reg, check_x86_gp_reg]
  · simp [check_x86_reg, check_x86_gp_reg]
    split_ifs <;> simp_all <;> omega
  · have hc : c ≠ 0 := fun h => h0 (by simp [h])
    simp [check_x86_reg, check_x86_gp_reg, hc]
    split_ifs <;> simp_all <;> omega
  · have hc : c ≠ 0 := fun h => h0 (by simp [h])
    have hd : d ≠ 0 := fun h => h0 (by simp [h])
    simp [check_x86_reg, check_x86_gp_reg, hc, hd]

/-- On a NUL-free token `check_x86_reg` raises `x86_operands` to the size the
token implies as a register name. -/
theorem check_x86_reg_snd (t : List Nat) (ops : X86Operands) (h0 : 0 ∉ t) :
    (check_x86_reg t ops).2 = max_operands ops (reg_operands t) := by
  rw [reg_operands, e_reg_names_eq, r_reg_names_eq]
  rcases t with _ | ⟨a, _ | ⟨b, _ | ⟨c, _ | ⟨d, t⟩⟩⟩⟩
  · simp [check_x86_reg, check_x86_gp_reg, max_operands_16]
  · simp [check_x86_reg, check_x86_gp_reg, max_operands_16]
  · simp [check_x86_reg, check_x86_gp_reg, max_operands_16]
    split_ifs <;> simp_all
  · have hc : c ≠ 0 := fun h => h0 (by simp [h])
    simp [check_x86_reg, check_x86_gp_reg, hc]
    split_ifs <;> simp_all [max_operands_16] <;> omega
  · have hc : c ≠ 0 := fun h => h0 (by simp [h])
    have hd : d ≠ 0 := fun h => h0 (by simp [h])
    simp [check_x86_reg, check_x86_gp_reg, hc, hd, max_operands_16]

theorem check_x86_reg_token (t : List Nat) (ops : X86Operands) (h0 : 0 ∉ t) :
    check_x86_reg t ops = (decide (t ∈ x86_reg_names), max_operands ops (reg_operands t)) :=
  Prod.ext (check_x86_reg_fst t ops h0) (check_x86_reg_snd t ops h0)

theorem reg_operands_of_not_reg (t : List Nat) (h : t ∉ x86_reg_names) :
    reg_operands t = X86_OPERAND_16 := by
  have h1 : t ∉ r_reg_names := fun hm => h (by simp [x86_reg_names, hm])
  have h2 : t ∉ e_reg_names := fun hm => h (by simp [x86_reg_names, hm])
  simp [reg_operands, h1, h2]

theorem reg_operands_percent (u : List Nat) : reg_operands (37 :: u) = X86_OPERAND_16 := by
  simp [reg_operands, e_reg_names_eq, r_reg_names_eq]

theorem foldl_max_operands_64 (ts : List (List Nat)) :
    ts.foldl (fun o t => max_operands o (implied_operands t)) X86_OPERAND_64
      = X86_OPERAND_64 := by
  induction ts with
  | nil => rfl
  | cons t ts ih => rw [List.foldl_cons, max_operands_64, ih]

theorem implied_operands_nil : implied_operands [] = X86_OPERAND_16 := by
  simp [implied_operands, strip_percent, reg_operands, e_reg_names_eq, r_reg_names_eq]

theorem implied_operands_percent (u : List Nat) :
    implied_operands (37 :: u) = reg_operands u := by
  simp [implied_operands, strip_percent]

theorem implied_operands_other (c : Nat) (u : List Nat) (hc : c ≠ 37) :
    implied_operands (c :: u) = reg_operands (c :: u) := by
  simp [implied_operands, strip_percent, hc]

theorem is_att_register_percent (u : List Nat) :
    is_att_register (37 :: u) = decide (u ∈ x86_reg_names) := by
  simp [is_att_register]

theorem is_att_register_other (c : Nat) (u : List Nat) (hc : c ≠ 37) :
    is_att_register (c :: u) = false := by
  simp [is_att_register, hc]

/-- The pass `check_x86_regs_flavor_and_size` over NUL-free tokens: the flavor
becomes AT&T exactly when a token is `%` + register name, and `x86_operands`
becomes the maximum of its start value and the sizes the tokens imply. -/
theorem check_x86_regs_flavor_and_size_tokens (ts : List (List Nat)) (h0 : ∀ t ∈ ts, 0 ∉ t)
    (fl : X86Flavor) (ops : X86Operands) :
    check_x86_regs_flavor_and_size ts fl ops
      = (if ts.any is_att_register then X86_FLAVOR_ATT else fl,
         ts.foldl (fun o t => max_operands o (implied_operands t)) ops) := by
  induction ts generalizing fl ops with
  | nil => rfl
  | cons t ts ih =>
    have h0t : 0 ∉ t := h0 t (by simp)
    have ih2 := ih (fun t ht => h0 t (by simp [ht]))
    rcases t with _ | ⟨c, u⟩
    · have e : check_x86_reg [] ops = (false, ops) := by
        simp [check_x86_reg, check_x86_gp_reg]
      have e0 : ([] : List Nat).getD 0 0 ≠ 37 := by decide
      have e3 : is_att_register [] = false := rfl
      rw [check_x86_regs_flavor_and_size, if_neg e0, e, ih2, List.any_cons, e3,
        List.foldl_cons, implied_operands_nil, max_operands_16, Bool.false_or]
    · have h0u : 0 ∉ u := fun h => h0t (by simp [h])
      by_cases hc : c = 37
      · subst hc
        have e1 := check_x86_reg_token u ops h0u
        have eg : (37 :: u).getD 0 0 = 37 := rfl
        have ed : (37 :: u).drop 1 = u := rfl
        rw [check_x86_regs_flavor_and_size, if_pos eg, ed, e1, List.any_cons,
          is_att_register_percent, List.foldl_cons, implied_operands_percent]
        by_cases hu : u ∈ x86_reg_names
        · simp only [hu, decide_True, Bool.true_or, if_true]
          by_cases h64 : max_operands ops (reg_operands u) = X86_OPERAND_64
          · simp only [h64, if_true, foldl_max_operands_64]
          · simp only [h64, if_false]
            rw [ih2]
            simp
        · have e2 := check_x86_reg_token (37 :: u) ops h0t
          simp only [hu, decide_False, Bool.false_or, e2, reg_operands_percent,
            reg_operands_of_not_reg u hu, max_operands_16]
          rw [ih2]
      · have e1 := check_x86_reg_token (c :: u) ops h0t
        have eg : (c :: u).getD 0 0 ≠ 37 := hc
        rw [check_x86_regs_flavor_and_size, if_neg eg, e1, ih2, List.any_cons,
          is_att_register_other c u hc, List.foldl_cons, implied_operands_other c u hc,
          Bool.false_or]

/-- The pass `check_x86_regs_flavor_and_size` over the views of `words`, in
terms of their strings. -/
theorem check_x86_regs_flavor_and_size_eq (ws : List (List Nat))
    (fl : X86Flavor) (ops : X86Operands) :
    check_x86_regs_flavor_and_size ws fl ops
      = (if (ws.map c_str).any is_att_register then X86_FLAVOR_ATT else fl,
         (ws.map c_str).foldl (fun o t => max_operands o (implied_operands t)) ops) := by
  rw [← check_x86_regs_flavor_and_size_c_str]
  apply check_x86_regs_flavor_and_size_tokens
  intro t ht
  obtain ⟨w, _, rfl⟩ := List.mem_map.1 ht
  exact zero_not_mem_c_str w

theorem str_eq_decide (w lit : List Nat) : str_eq w lit = decide (c_str w = lit) := by
  by_cases h : c_str w = lit <;> simp [str_eq, h]

/-- The pass `check_arm_and_vfp_insns` in terms of the strings of the words. -/
theorem check_arm_and_vfp_insns_eq (ws : List (List Nat)) (isa : Isa) (vfp : ArmVfp) :
    check_arm_and_vfp_insns ws isa vfp
      = if (ws.map c_str).any is_vfp_insn then (true, ISA_ARM, ARM_VFP_PRESENT)
        else if (ws.map c_str).any is_arm_insn then (true, ISA_ARM, vfp)
        else (decide (isa = ISA_ARM), isa, vfp) := by
  induction ws generalizing isa with
  | nil => rfl
  | cons w ws ih =>
    have hv : (str_eq w (bytes "vldr") || str_eq w (bytes "vstr")) = is_vfp_insn (c_str w) := by
      simp only [str_eq_decide, is_vfp_insn]
    have ha : (str_eq w (bytes "ldr") || str_eq w (bytes "str")) = is_arm_insn (c_str w) := by
      simp only [str_eq_decide, is_arm_insn]
    rw [check_arm_and_vfp_insns, hv, ha, List.map_cons, List.any_cons, List.any_cons]
    by_cases h1 : is_vfp_insn (c_str w) = true
    · simp only [h1, if_true, Bool.true_or]
    · rw [ih, ih]
      by_cases h2 : is_arm_insn (c_str w) = true <;>
        by_cases h3 : (ws.map c_str).any is_vfp_insn = true <;>
        by_cases h4 : (ws.map c_str).any is_arm_insn = true <;>
        simp [h1, h2, h3, h4]

/-- The pass `check_x87_commands` in terms of the strings of the words. -/
theorem check_x87_commands_eq (ws : List (List Nat)) (x87 : X87) :
    check_x87_commands ws x87
      = if (ws.map c_str).any is_x87_insn then X87_PRESENT else x87 := by
  induction ws with
  | nil => rfl
  | cons w ws ih =>
    have hx : (str_eq w (bytes "finit") || str_eq w (bytes "fld") || str_eq w (bytes "fst"))
        = is_x87_insn (c_str w) := by
      simp only [str_eq_decide, is_x87_insn]
    rw [check_x87_commands, hx, List.map_cons, List.any_cons, ih]
    by_cases h1 : is_x87_insn (c_str w) = true
    · simp only [h1, if_true, Bool.true_or]
    · simp only [h1, Bool.false_or]
      simp

/-- The classifier of main leaves the flags the rules of the passes give for
the strings of the words. -/
theorem classify_eq (ws : List (List Nat)) :
    classify ws initial_flags = classify_tokens (ws.map c_str) := by
  rw [classify, classify_tokens, check_arm_and_vfp_insns_eq, check_x86_regs_flavor_and_size_eq,
    check_x87_commands_eq]
  by_cases h1 : (ws.map c_str).any is_vfp_insn = true
  · simp only [h1, if_true]; rfl
  · by_cases h2 : (ws.map c_str).any is_arm_insn = true
    · simp only [h1, h2, if_true, if_false]; rfl
    · simp only [h1, h2, if_false]; rfl

/-- The program always reaches the classifier and prints: its tokens are the
tokens of the specification, its flags and its line those of the rules. -/
theorem main_spec (input junk : List Nat) :
    main_tokens input junk = some (spec_tokens input)
      ∧ main_flags input junk = some (classify_tokens (spec_tokens input))
      ∧ main input junk = some (emit (classify_tokens (spec_tokens input))) := by
  obtain ⟨ws, h, hv⟩ := main_words_eq input junk
  simp only [main, main_flags, main_tokens, h, Option.map_some', spec_tokens, ← hv,
    classify_eq, and_self]

theorem any_of_mem {ts : List (List Nat)} {t : List Nat} (f : List Nat → Bool)
    (hm : t ∈ ts) (hf : f t = true) : ts.any f = true :=
  List.any_eq_true.2 ⟨t, hm, hf⟩

theorem any_false_of_forall {ts : List (List Nat)} (f : List Nat → Bool)
    (h : ∀ t ∈ ts, f t = false) : ts.any f = false := by
  cases hx : ts.any f with
  | false => rfl
  | true =>
    obtain ⟨t, hm, hf⟩ := List.any_eq_true.1 hx
    rw [h t hm] at hf
    exact absurd hf (by decide)

theorem is_att_register_iff (t : List Nat) :
    is_att_register t = true ↔ ∃ u, t = 37 :: u ∧ u ∈ x86_reg_names := by
  rcases t with _ | ⟨c, u⟩
  · simp [is_att_register]
  · by_cases hc : c = 37
    · subst hc; simp [is_att_register]
    · simp [is_att_register, hc]

theorem any_is_att_register_iff (ts : List (List Nat)) :
    ts.any is_att_register = true ↔ ∃ t ∈ ts, ∃ u, t = 37 :: u ∧ u ∈ x86_reg_names := by
  rw [List.any_eq_true]
  constructor
  · rintro ⟨t, hm, h⟩
    exact ⟨t, hm, (is_att_register_iff t).1 h⟩
  · rintro ⟨t, hm, h⟩
    exact ⟨t, hm, (is_att_register_iff t).2 h⟩

theorem implied_operands_of_not_reg (t : List Nat) (h1 : t ∉ x86_reg_names)
    (h2 : ∀ u, t = 37 :: u → u ∉ x86_reg_names) : implied_operands t = X86_OPERAND_16 := by
  rcases t with _ | ⟨c, u⟩
  · exact implied_operands_nil
  · by_cases hc : c = 37
    · subst hc
      rw [implied_operands_percent, reg_operands_of_not_reg u (h2 u rfl)]
    · rw [implied_operands_other c u hc, reg_operands_of_not_reg _ h1]

theorem foldl_max_operands_16 (ts : List (List Nat))
    (h : ∀ t ∈ ts, implied_operands t = X86_OPERAND_16) (ops : X86Operands) :
    ts.foldl (fun o t => max_operands o (implied_operands t)) ops = ops := by
  induction ts with
  | nil => rfl
  | cons t ts ih =>
    rw [List.foldl_cons, h t (by simp), max_operands_16, ih (fun t ht => h t (by simp [ht]))]

theorem bits_foldl_max_operands (ts : List (List Nat)) (ops : X86Operands) :
    bits (ts.foldl (fun o t => max_operands o (implied_operands t)) ops)
      = max (bits ops) ((ts.map (fun t => bits (implied_operands t))).foldr max 16) := by
  induction ts generalizing ops with
  | nil => cases ops <;> rfl
  | cons t ts ih =>
    rw [List.foldl_cons, ih, bits_max_operands, List.map_cons, List.foldr_cons, max_assoc]

/-! ## Monotonicity of the operand width -/

theorem bits_le_max_operands (a b : X86Operands) : bits a ≤ bits (max_operands a b) := by
  rw [bits_max_operands]; exact le_max_left _ _

/-- On every word, with whatever memory behind it, `check_x86_reg` leaves the
maximum of `x86_operands` and the size the string of the word implies. -/
theorem check_x86_reg_snd_view (w : List Nat) (ops : X86Operands) :
    (check_x86_reg w ops).2 = max_operands ops (reg_operands (c_str w)) := by
  rw [← check_x86_reg_c_str, check_x86_reg_snd _ _ (zero_not_mem_c_str w)]

theorem check_x86_reg_fst_view (w : List Nat) (ops : X86Operands) :
    (check_x86_reg w ops).1 = decide (c_str w ∈ x86_reg_names) := by
  rw [← check_x86_reg_c_str, check_x86_reg_fst _ _ (zero_not_mem_c_str w)]

theorem bits_le_foldl_max_operands (ts : List (List Nat)) (ops : X86Operands) :
    bits ops ≤ bits (ts.foldl (fun o t => max_operands o (implied_operands t)) ops) := by
  rw [bits_foldl_max_operands]; exact le_max_left _ _

/-! ## The loop without the early return -/

theorem check_x86_reg_snd_64 (w : List Nat) :
    (check_x86_reg w X86_OPERAND_64).2 = X86_OPERAND_64 := by
  rw [check_x86_reg_snd_view, max_operands_64]

theorem no_return_att_64 (ws : List (List Nat)) :
    check_x86_regs_flavor_and_size_no_return ws X86_FLAVOR_ATT X86_OPERAND_64
      = (X86_FLAVOR_ATT, X86_OPERAND_64) := by
  induction ws with
  | nil => rfl
  | cons w ws ih =>
    by_cases hg : w.getD 0 0 = 37
    · rcases h : check_x86_reg (w.drop 1) X86_OPERAND_64 with ⟨b, o⟩
      have ho : o = X86_OPERAND_64 := by
        have := check_x86_reg_snd_64 (w.drop 1)
        rw [h] at this
        exact this
      subst ho
      cases b
      · rw [check_x86_regs_flavor_and_size_no_return, if_pos hg, h]
        simp only []
        rw [check_x86_reg_snd_64, ih]
      · rw [check_x86_regs_flavor_and_size_no_return, if_pos hg, h]
        simp only []
        rw [ih]
    · rw [check_x86_regs_flavor_and_size_no_return, if_neg hg, check_x86_reg_snd_64, ih]

/-! ## The classification depends on the set of tokens only -/

theorem any_congr_mem (f : List Nat → Bool) (ts1 ts2 : List (List Nat))
    (h : ∀ t, t ∈ ts1 ↔ t ∈ ts2) : ts1.any f = ts2.any f := by
  rw [Bool.eq_iff_iff, List.any_eq_true, List.any_eq_true]
  constructor
  · rintro ⟨t, hm, hf⟩; exact ⟨t, (h t).1 hm, hf⟩
  · rintro ⟨t, hm, hf⟩; exact ⟨t, (h t).2 hm, hf⟩

theorem foldr_max_le_iff (l : List Nat) (x : Nat) :
    l.foldr max 16 ≤ x ↔ 16 ≤ x ∧ ∀ y ∈ l, y ≤ x := by
  induction l with
  | nil => simp
  | cons a l ih =>
    rw [List.foldr_cons, max_le_iff, ih]
    simp only [List.mem_cons, forall_eq_or_imp]
    tauto

theorem foldr_max_congr (l1 l2 : List Nat) (h : ∀ y, y ∈ l1 ↔ y ∈ l2) :
    l1.foldr max 16 = l2.foldr max 16 := by
  apply le_antisymm
  · rw [foldr_max_le_iff]
    have := (foldr_max_le_iff l2 (l2.foldr max 16)).1 le_rfl
    exact ⟨this.1, fun y hy => this.2 y ((h y).1 hy)⟩
  · rw [foldr_max_le_iff]
    have := (foldr_max_le_iff l1 (l1.foldr max 16)).1 le_rfl
    exact ⟨this.1, fun y hy => this.2 y ((h y).2 hy)⟩

theorem bits_injective (a b : X86Operands) (h : bits a = bits b) : a = b := by
  cases a <;> cases b <;> first | rfl | (exact absurd h (by decide))

theorem classify_tokens_congr (ts1 ts2 : List (List Nat)) (h : ∀ t, t ∈ ts1 ↔ t ∈ ts2) :
    classify_tokens ts1 = classify_tokens ts2 := by
  have hops : ts1.foldl (fun o t => max_operands o (implied_operands t)) X86_OPERAND_16
      = ts2.foldl (fun o t => max_operands o (implied_operands t)) X86_OPERAND_16 := by
    apply bits_injective
    rw [bits_foldl_max_operands, bits_foldl_max_operands]
    congr 1
    apply foldr_max_congr
    intro y
    simp only [List.mem_map]
    constructor
    · rintro ⟨t, hm, e⟩; exact ⟨t, (h t).1 hm, e⟩
    · rintro ⟨t, hm, e⟩; exact ⟨t, (h t).2 hm, e⟩
  rw [classify_tokens, classify_tokens, any_congr_mem is_vfp_insn ts1 ts2 h,
    any_congr_mem is_arm_insn ts1 ts2 h, any_congr_mem is_att_register ts1 ts2 h,
    any_congr_mem is_x87_insn ts1 ts2 h, hops]

/-! ## Case folding commutes with the stages -/

theorem tolower_tolower (c : Nat) : tolower (tolower c) = tolower c := by
  unfold tolower
  split_ifs <;> omega

theorem tolower_toupper (c : Nat) : tolower (toupper c) = tolower c := by
  unfold tolower toupper
  split_ifs <;> omega

theorem tolower_eq_quote (c : Nat) : tolower c = QUOTE ↔ c = QUOTE := by
  unfold tolower QUOTE
  split_ifs <;> omega

theorem toupper_eq_quote (c : Nat) : toupper c = QUOTE ↔ c = QUOTE := by
  unfold toupper QUOTE
  split_ifs <;> omega

theorem toupper_eq_zero (c : Nat) : toupper c = 0 ↔ c = 0 := by
  unfold toupper
  split_ifs <;> omega

theorem c_str_map (f : Nat → Nat) (hf : ∀ c, f c = 0 ↔ c = 0) (s : List Nat) :
    c_str (s.map f) = (c_str s).map f := by
  induction s with
  | nil => rfl
  | cons a s ih =>
    by_cases ha : a = 0
    · subst ha
      rw [List.map_cons, (hf 0).2 rfl, c_str_cons_zero, c_str_cons_zero]
      rfl
    · have hfa : f a ≠ 0 := fun h => ha ((hf a).1 h)
      rw [List.map_cons, c_str_cons_ne _ _ hfa, c_str_cons_ne _ _ ha, ih, List.map_cons]

theorem quote_not_mem_map (f : Nat → Nat) (hf : ∀ c, f c = QUOTE ↔ c = QUOTE) (r : List Nat)
    (h : QUOTE ∉ r) : QUOTE ∉ r.map f := by
  intro hm
  obtain ⟨x, hx, e⟩ := List.mem_map.1 hm
  exact h (((hf x).1 e) ▸ hx)

/-- Stripping the literals commutes with a byte map that neither makes nor
removes a double quote. -/
theorem strip_map (f : Nat → Nat) (hf : ∀ c, f c = QUOTE ↔ c = QUOTE) (s : List Nat) :
    strip (s.map f) = (strip s).map f := by
  have hq : f QUOTE = QUOTE := (hf QUOTE).2 rfl
  refine quotes_induction (fun s => strip (s.map f) = (strip s).map f) ?_ ?_ ?_ s
  · intro r hr
    rw [strip_free r hr, strip_free _ (quote_not_mem_map f hf r hr)]
  · intro r1 r2 h1 h2
    rw [strip_open r1 r2 h1 h2, List.map_append, List.map_cons, hq,
      strip_open _ _ (quote_not_mem_map f hf r1 h1) (quote_not_mem_map f hf r2 h2)]
  · intro r1 l r3 h1 hl ih
    simp only [] at ih
    rw [strip_pair r1 l r3 h1 hl, List.map_append, List.map_cons, List.map_append,
      List.map_cons, hq,
      strip_pair _ _ _ (quote_not_mem_map f hf r1 h1) (quote_not_mem_map f hf l hl), ih,
      List.map_append]

theorem spec_tokens_map (f : Nat → Nat) (h0 : ∀ c, f c = 0 ↔ c = 0)
    (hq : ∀ c, f c = QUOTE ↔ c = QUOTE) (hl : ∀ c, tolower (f c) = tolower c)
    (s : List Nat) : spec_tokens (s.map f) = spec_tokens s := by
  rw [spec_tokens, spec_tokens, c_str_map f h0, strip_map f hq, List.map_map]
  have : tolower ∘ f = tolower := funext hl
  rw [this]

/-! ## Fuel of the loop of `cut_string_literals` -/

theorem cut_loop_mono (fuel : Nat) :
    ∀ (data : List Nat) (data_len pos : Nat) (begin : Option Nat) (r : List Nat × Nat),
      cut_loop fuel data data_len pos begin = some r →
      ∀ k, cut_loop (fuel + k) data data_len pos begin = some r := by
  induction fuel with
  | zero =>
    intro data data_len pos begin r h
    simp [cut_loop] at h
  | succ f ih =>
    intro data data_len pos begin r h k
    have e : f + 1 + k = (f + k) + 1 := by omega
    rw [e]
    rw [cut_loop] at h ⊢
    cases hs : strchr data pos QUOTE with
    | none =>
      rw [hs] at h
      exact h
    | some quote =>
      rw [hs] at h
      cases begin with
      | none => exact ih _ _ _ _ _ h k
      | some b => exact ih _ _ _ _ _ h k

theorem count_quote_c_str_le (input : List Nat) :
    (c_str input).count QUOTE ≤ input.count QUOTE := by
  obtain ⟨T, e, _⟩ := input_split input
  have h := congrArg (List.count QUOTE) e
  simp only [List.count_append, List.count_cons, List.count_nil] at h
  have h1 : (if (0 : Nat) == QUOTE then 1 else 0) = 0 := by decide
  simp only [beq_iff_eq] at h
  omega

/-! ## The claims -/

/-- C1, as stated, fails: the literal content may hold a NUL byte. With the
quote-free literal contents `[0]` and `[]` between the same NUL-free text
`mov ` and the same text ` ldr`, the program prints `86 0 0 16` for the
first input and `0 0` for the second. -/
theorem C1_counterexample :
    0 ∉ bytes "mov " ∧ Even ((bytes "mov ").count QUOTE)
      ∧ QUOTE ∉ [0] ∧ QUOTE ∉ ([] : List Nat)
      ∧ main (bytes "mov " ++ (QUOTE :: [0] ++ QUOTE :: bytes " ldr")) [] = some "86 0 0 16\n"
      ∧ main (bytes "mov " ++ (QUOTE :: [] ++ QUOTE :: bytes " ldr")) [] = some "0 0\n" := by
  decide

/-- C1, amended: for every NUL-free text `a` with an even number of double
quotes, every text `b` and every two quote-free and NUL-free texts `l1` and
`l2`, the program prints a line, and the same line, for `a + '"' + l1 + '"' + b`,
for `a + '"' + l2 + '"' + b` and for `a + b`, whatever lies behind the buffer;
the input `mov "vldr ldr" , eax` is classified as x86 (the line `86 0 0 32`). -/
theorem C1_literal_content_ignored (a b l1 l2 junk1 junk2 junk3 : List Nat)
    (ha0 : 0 ∉ a) (hae : Even (a.count QUOTE))
    (hl1 : QUOTE ∉ l1) (hl1z : 0 ∉ l1) (hl2 : QUOTE ∉ l2) (hl2z : 0 ∉ l2) :
    (∃ line, main (a ++ (QUOTE :: l1 ++ QUOTE :: b)) junk1 = some line
      ∧ main (a ++ (QUOTE :: l2 ++ QUOTE :: b)) junk2 = some line
      ∧ main (a ++ b) junk3 = some line)
    ∧ main (bytes "mov " ++ (QUOTE :: bytes "vldr ldr" ++ QUOTE :: bytes " , eax")) junk1
        = some "86 0 0 32\n" := by
  have key : ∀ l : List Nat, QUOTE ∉ l → 0 ∉ l →
      spec_tokens (a ++ (QUOTE :: l ++ QUOTE :: b)) = spec_tokens (a ++ b) := by
    intro l hl hlz
    have e : a ++ (QUOTE :: l ++ QUOTE :: b) = (a ++ QUOTE :: l ++ [QUOTE]) ++ b := by simp
    have hz : 0 ∉ a ++ QUOTE :: l ++ [QUOTE] := by
      simp only [List.mem_append, List.mem_cons, List.mem_singleton, List.not_mem_nil,
        not_or, or_false]
      exact ⟨⟨ha0, by decide, hlz⟩, by decide⟩
    have e2 : a ++ QUOTE :: l ++ [QUOTE] ++ c_str b
        = a ++ ([] ++ QUOTE :: (l ++ QUOTE :: c_str b)) := by simp
    rw [spec_tokens, spec_tokens, e, c_str_append_left _ b hz, c_str_append_left a b ha0, e2,
      strip_append a _ hae, strip_append a _ hae, strip_pair [] l _ (by simp) hl]
    rfl
  refine ⟨⟨emit (classify (spec_tokens (a ++ b)) initial_flags), ?_, ?_, ?_⟩, ?_⟩
  · rw [(main_eq _ junk1).2.2, key l1 hl1 hl1z]
  · rw [(main_eq _ junk2).2.2, key l2 hl2 hl2z]
  · rw [(main_eq _ junk3).2.2]
  · rw [(main_eq _ junk1).2.2]
    decide

theorem C1_literal_content_ignored_witness :
    (0 ∉ bytes "mov " ∧ Even ((bytes "mov ").count QUOTE)
      ∧ QUOTE ∉ bytes "vldr ldr" ∧ 0 ∉ bytes "vldr ldr"
      ∧ QUOTE ∉ bytes "x" ∧ 0 ∉ bytes "x")
    ∧ ((∃ line, main (bytes "mov " ++ (QUOTE :: bytes "vldr ldr" ++ QUOTE :: bytes " , eax"))
            [] = some line
          ∧ main (bytes "mov " ++ (QUOTE :: bytes "x" ++ QUOTE :: bytes " , eax")) [7]
            = some line
          ∧ main (bytes "mov " ++ bytes " , eax") [7, 7] = some line)
      ∧ main (bytes "mov " ++ (QUOTE :: bytes "vldr ldr" ++ QUOTE :: bytes " , eax")) []
          = some "86 0 0 32\n") :=
  ⟨by decide,
   C1_literal_content_ignored (bytes "mov ") (bytes " , eax") (bytes "vldr ldr") (bytes "x")
     [] [7] [7, 7] (by decide) (by decide) (by decide) (by decide) (by decide) (by decide)⟩

/-- C2: for every NUL-free input with an even number of double quotes (and
whatever lies behind the buffer), `cut_string_literals` returns; the recorded
bytes it leaves are the pieces of the input before the 1st quote, between the
2nd and 3rd, ..., after the last quote, concatenated in order, followed by the
terminating NUL; they hold no double quote; and `data_len` has decreased by
the number of deleted bytes (the quotes and the pieces between the 1st and 2nd,
3rd and 4th, ... quote). -/
theorem C2_cut_string_literals_even (input junk : List Nat)
    (h0 : 0 ∉ input) (hev : Even (input.count QUOTE)) :
    ∃ data data_len,
      cut_string_literals (input ++ 0 :: junk) (input.length + 1) = some (data, data_len)
      ∧ data.take data_len = (even_pieces (input.splitOn QUOTE)).flatten ++ [0]
      ∧ QUOTE ∉ data.take data_len
      ∧ data_len + ((odd_pieces (input.splitOn QUOTE)).flatten.length + input.count QUOTE)
          = input.length + 1 := by
  obtain ⟨J, hcut, _⟩ := cut_string_literals_eq input [] junk h0
  simp only [List.nil_append, List.length_nil, Nat.add_zero] at hcut
  have htake : (strip input ++ 0 :: J).take ((strip input).length + 1) = strip input ++ [0] := by
    have e : strip input ++ 0 :: J = (strip input ++ [0]) ++ J := by simp
    rw [e]; exact List.take_left' (by simp)
  refine ⟨_, _, hcut, ?_, ?_, ?_⟩
  · rw [htake, strip_eq_even_pieces input hev]
  · rw [htake]
    have := strip_no_quote input hev
    simp only [List.mem_append, List.mem_singleton, not_or]
    exact ⟨this, by decide⟩
  · have := length_pieces input hev
    rw [strip_eq_even_pieces input hev]
    omega

theorem C2_cut_string_literals_even_witness :
    (0 ∉ bytes "a\"bc\"d" ∧ Even ((bytes "a\"bc\"d").count QUOTE))
    ∧ ∃ data data_len,
      cut_string_literals (bytes "a\"bc\"d" ++ 0 :: [7]) ((bytes "a\"bc\"d").length + 1)
        = some (data, data_len)
      ∧ data.take data_len = (even_pieces ((bytes "a\"bc\"d").splitOn QUOTE)).flatten ++ [0]
      ∧ QUOTE ∉ data.take data_len
      ∧ data_len + ((odd_pieces ((bytes "a\"bc\"d").splitOn QUOTE)).flatten.length
          + (bytes "a\"bc\"d").count QUOTE) = (bytes "a\"bc\"d").length + 1 :=
  ⟨by decide, C2_cut_string_literals_even (bytes "a\"bc\"d") [7] (by decide) (by decide)⟩

/-- C3: for every NUL-free input with an odd number of double quotes,
`cut_string_literals` returns and leaves `strip(p) + '"' + s` (and the
terminating NUL), where `p` is the input before its last double quote, `s`
the quote-free text after it, and `strip(p)` the pieces of `p` outside its
paired quotes. -/
theorem C3_cut_string_literals_odd (input junk : List Nat)
    (h0 : 0 ∉ input) (hodd : Odd (input.count QUOTE)) :
    ∃ p s data data_len,
      input = p ++ QUOTE :: s ∧ QUOTE ∉ s
      ∧ cut_string_literals (input ++ 0 :: junk) (input.length + 1) = some (data, data_len)
      ∧ data.take data_len
          = (even_pieces (p.splitOn QUOTE)).flatten ++ QUOTE :: s ++ [0] := by
  have hq : QUOTE ∈ input := by
    by_contra hno
    rw [List.count_eq_zero_of_not_mem hno] at hodd
    exact absurd hodd (by decide)
  obtain ⟨p, s, rfl, hs⟩ := split_last input hq
  have hcnt : (p ++ QUOTE :: s).count QUOTE = p.count QUOTE + 1 := by
    simp [List.count_append, List.count_eq_zero_of_not_mem hs]
  have hev : Even (p.count QUOTE) := by
    rw [hcnt] at hodd
    rcases hodd with ⟨k, hk⟩
    exact ⟨k, by omega⟩
  obtain ⟨J, hcut, _⟩ := cut_string_literals_eq (p ++ QUOTE :: s) [] junk h0
  simp only [List.nil_append, List.length_nil, Nat.add_zero] at hcut
  have hstrip : strip (p ++ QUOTE :: s)
      = (even_pieces (p.splitOn QUOTE)).flatten ++ QUOTE :: s := by
    rw [strip_append p _ hev, strip_eq_even_pieces p hev]
    have := strip_open [] s (by simp) hs
    simp only [List.nil_append] at this
    rw [this]
  refine ⟨p, s, _, _, rfl, hs, hcut, ?_⟩
  have e : strip (p ++ QUOTE :: s) ++ 0 :: J = (strip (p ++ QUOTE :: s) ++ [0]) ++ J := by simp
  rw [e, List.take_left' (by simp), hstrip]

theorem C3_cut_string_literals_odd_witness :
    (0 ∉ bytes "a\"b\"c\"d" ∧ Odd ((bytes "a\"b\"c\"d").count QUOTE))
    ∧ ∃ p s data data_len,
      bytes "a\"b\"c\"d" = p ++ QUOTE :: s ∧ QUOTE ∉ s
      ∧ cut_string_literals (bytes "a\"b\"c\"d" ++ 0 :: [7]) ((bytes "a\"b\"c\"d").length + 1)
          = some (data, data_len)
      ∧ data.take data_len
          = (even_pieces (p.splitOn QUOTE)).flatten ++ QUOTE :: s ++ [0] :=
  ⟨by decide, C3_cut_string_literals_odd (bytes "a\"b\"c\"d") [7] (by decide) (by decide)⟩

/-- C4: for every NUL-free text in a NUL-terminated buffer, `tokenize` returns
and the strings of the words it pushes are, in left-to-right order (the
pointers increase), exactly the maximal runs of non-delimiter bytes of the
text; the delimiters are exactly the nine bytes space, tab, CR, LF, comma,
`(`, `)`, `[`, `]`; and the tokens concatenated are the text without its
delimiter bytes. -/
theorem C4_tokenize_runs (text rest : List Nat) (h0 : 0 ∉ text) :
    (∀ c, is_delimiter c = true ↔
      c = 32 ∨ c = 9 ∨ c = 13 ∨ c = 10 ∨ c = 44 ∨ c = 40 ∨ c = 41 ∨ c = 91 ∨ c = 93)
    ∧ ∃ data words,
      tokenize (text ++ 0 :: rest) = some (data, words)
      ∧ words.Pairwise (fun a b => a < b)
      ∧ (word_views data words).map c_str
          = (text.splitOnP is_delimiter).filter (fun t => !t.isEmpty)
      ∧ ((word_views data words).map c_str).flatten
          = text.filter (fun c => !is_delimiter c) := by
  refine ⟨?_, ?_⟩
  · intro c
    simp [is_delimiter, delimiters]
  · obtain ⟨R, offs, htok, _, hviews, hsorted⟩ := tokenize_eq text (0 :: rest) h0 rfl
    refine ⟨_, _, htok, hsorted, hviews, ?_⟩
    rw [hviews, flatten_runs]

theorem C4_tokenize_runs_witness :
    0 ∉ bytes "mov  [eax],(ebx)"
    ∧ ((∀ c, is_delimiter c = true ↔
        c = 32 ∨ c = 9 ∨ c = 13 ∨ c = 10 ∨ c = 44 ∨ c = 40 ∨ c = 41 ∨ c = 91 ∨ c = 93)
      ∧ ∃ data words,
        tokenize (bytes "mov  [eax],(ebx)" ++ 0 :: [7]) = some (data, words)
        ∧ words.Pairwise (fun a b => a < b)
        ∧ (word_views data words).map c_str
            = ((bytes "mov  [eax],(ebx)").splitOnP is_delimiter).filter (fun t => !t.isEmpty)
        ∧ ((word_views data words).map c_str).flatten
            = (bytes "mov  [eax],(ebx)").filter (fun c => !is_delimiter c)) :=
  ⟨by decide, C4_tokenize_runs (bytes "mov  [eax],(ebx)") [7] (by decide)⟩

/-- C5: for every buffer `tokenize` returns, no word it pushes is the empty
string and no word holds a delimiter byte; the buffer `eax,,ebx` yields
exactly the two tokens `eax` and `ebx`; a buffer of delimiters only yields no
token. -/
theorem C5_tokens_nonempty_delimiter_free :
    (∀ data : List Nat, ∃ data1 words,
      tokenize data = some (data1, words)
      ∧ ∀ t ∈ (word_views data1 words).map c_str, t ≠ [] ∧ ∀ c ∈ t, c ∉ delimiters)
    ∧ (∀ rest : List Nat, ∃ data1 words,
      tokenize (bytes "eax,,ebx" ++ 0 :: rest) = some (data1, words)
      ∧ (word_views data1 words).map c_str = [bytes "eax", bytes "ebx"])
    ∧ (∀ D rest : List Nat, (∀ c ∈ D, c ∈ delimiters) → ∃ data1,
      tokenize (D ++ 0 :: rest) = some (data1, [])) := by
  refine ⟨?_, ?_, ?_⟩
  · intro data
    obtain ⟨T, e, hT⟩ := c_str_split data
    obtain ⟨R, offs, htok, _, hviews, _⟩ := tokenize_eq (c_str data) T (zero_not_mem_c_str data) hT
    rw [← e] at htok
    refine ⟨_, _, htok, ?_⟩
    rw [hviews]
    exact runs_tokens _
  · intro rest
    obtain ⟨R, offs, htok, _, hviews, _⟩ :=
      tokenize_eq (bytes "eax,,ebx") (0 :: rest) (by decide) rfl
    refine ⟨_, _, htok, ?_⟩
    rw [hviews]
    decide
  · intro D rest hD
    have h0 : 0 ∉ D := fun h => zero_not_delimiter (hD 0 h)
    obtain ⟨R, offs, htok, _, hviews, _⟩ := tokenize_eq D (0 :: rest) h0 rfl
    have hr : runs D = [] := by
      have := runs_delims D [] hD
      simpa [runs_nil] using this
    rw [hr] at hviews
    have : offs = [] := by
      cases offs with
      | nil => rfl
      | cons o offs => simp [word_views] at hviews
    subst this
    exact ⟨_, htok⟩

theorem C5_tokens_nonempty_delimiter_free_witness :
    (∀ c ∈ bytes ", \t", c ∈ delimiters)
    ∧ ∃ data1, tokenize (bytes ", \t" ++ 0 :: [7]) = some (data1, []) :=
  ⟨by decide, C5_tokens_nonempty_delimiter_free.2.2 (bytes ", \t") [7] (by decide)⟩

/-- C6: for every input the program reaches the classifier, and when its
token list (after literal stripping, lowercasing and tokenizing) contains the
token `vldr` or the token `vstr`, at any position and whatever the other tokens
are, the line printed is exactly `0 1`. -/
theorem C6_vfp_token_prints_0_1 (input junk : List Nat) :
    ∃ tokens, main_tokens input junk = some tokens
      ∧ ((bytes "vldr" ∈ tokens ∨ bytes "vstr" ∈ tokens)
          → main input junk = some "0 1\n") := by
  obtain ⟨ht, _, hm⟩ := main_spec input junk
  refine ⟨_, ht, ?_⟩
  intro h
  have hv : (spec_tokens input).any is_vfp_insn = true := by
    rcases h with h | h
    · exact any_of_mem is_vfp_insn h (by decide)
    · exact any_of_mem is_vfp_insn h (by decide)
  rw [hm, classify_tokens, if_pos hv]
  decide

theorem C6_vfp_token_prints_0_1_witness :
    main (bytes "mov %rax, %rbx\nVLDR d0, [r1]") [] = some "0 1\n" := by
  obtain ⟨tokens, ht, h⟩ := C6_vfp_token_prints_0_1 (bytes "mov %rax, %rbx\nVLDR d0, [r1]") []
  have e : main_tokens (bytes "mov %rax, %rbx\nVLDR d0, [r1]") []
      = some [bytes "mov", bytes "%rax", bytes "%rbx", bytes "vldr", bytes "d0", bytes "r1"] := by
    decide
  rw [e] at ht
  cases ht
  exact h (Or.inl (by decide))

/-- C7: for every input the program reaches the classifier, and when its
token list contains the token `ldr` or `str` but neither `vldr` nor `vstr`,
the line printed is exactly `0 0`, whatever x86 register names or x87
mnemonics are among the tokens. -/
theorem C7_arm_token_prints_0_0 (input junk : List Nat) :
    ∃ tokens, main_tokens input junk = some tokens
      ∧ ((bytes "ldr" ∈ tokens ∨ bytes "str" ∈ tokens)
          → bytes "vldr" ∉ tokens → bytes "vstr" ∉ tokens
          → main input junk = some "0 0\n") := by
  obtain ⟨ht, _, hm⟩ := main_spec input junk
  refine ⟨_, ht, ?_⟩
  intro h h1 h2
  have hv : ¬ (spec_tokens input).any is_vfp_insn = true := by
    intro hx
    obtain ⟨t, hmem, hf⟩ := List.any_eq_true.1 hx
    simp only [is_vfp_insn, Bool.or_eq_true, decide_eq_true_eq] at hf
    rcases hf with hf | hf
    · exact h1 (hf ▸ hmem)
    · exact h2 (hf ▸ hmem)
  have ha : (spec_tokens input).any is_arm_insn = true := by
    rcases h with h | h
    · exact any_of_mem is_arm_insn h (by decide)
    · exact any_of_mem is_arm_insn h (by decide)
  rw [hm, classify_tokens, if_neg hv, if_pos ha]
  decide

theorem C7_arm_token_prints_0_0_witness :
    main (bytes "fld %rax\nLDR r0, [r1]") [] = some "0 0\n" := by
  obtain ⟨tokens, ht, h⟩ := C7_arm_token_prints_0_0 (bytes "fld %rax\nLDR r0, [r1]") []
  have e : main_tokens (bytes "fld %rax\nLDR r0, [r1]") []
      = some [bytes "fld", bytes "%rax", bytes "ldr", bytes "r0", bytes "r1"] := by
    decide
  rw [e] at ht
  cases ht
  exact h (Or.inl (by decide)) (by decide) (by decide)

/-- C8, as stated, fails: the input `fld st(0)` has the tokens `fld`, `st`, `0`,
none of them `vldr`, `vstr`, `ldr`, `str` or an x86 register name with or
without `%`, and the program prints `86 0 1 16`, not `86 0 0 16`. -/
theorem C8_counterexample :
    main_tokens (bytes "fld st(0)") [] = some [bytes "fld", bytes "st", bytes "0"]
      ∧ (∀ t ∈ [bytes "fld", bytes "st", bytes "0"],
          t ∉ [bytes "vldr", bytes "vstr", bytes "ldr", bytes "str"]
          ∧ t ∉ x86_reg_names ∧ ∀ u, t = 37 :: u → u ∉ x86_reg_names)
      ∧ main (bytes "fld st(0)") [] = some "86 0 1 16\n"
      ∧ main (bytes "fld st(0)") [] ≠ some "86 0 0 16\n" := by
  refine ⟨by decide, ?_, by decide, by decide⟩
  intro t ht
  refine ⟨?_, ?_, ?_⟩
  · revert t; decide
  · revert t; decide
  · intro u hu
    exfalso
    revert hu
    have : ∀ t ∈ [bytes "fld", bytes "st", bytes "0"], t.head? ≠ some 37 := by decide
    intro hu
    exact this t ht (by rw [hu]; rfl)

/-- C8, amended: for every input the program reaches the classifier, and when
its token list contains none of `vldr`, `vstr`, `ldr`, `str` and no x86
register name, with or without a `%` prefix, the line printed is `86 0 0 16`
if no token is `finit`, `fld` or `fst`, and `86 0 1 16` if one is. -/
theorem C8_no_register_prints_16 (input junk : List Nat) :
    ∃ tokens, main_tokens input junk = some tokens
      ∧ ((∀ t ∈ tokens,
            t ∉ [bytes "vldr", bytes "vstr", bytes "ldr", bytes "str"]
            ∧ t ∉ x86_reg_names ∧ ∀ u, t = 37 :: u → u ∉ x86_reg_names)
          → main input junk
              = some (if bytes "finit" ∈ tokens ∨ bytes "fld" ∈ tokens ∨ bytes "fst" ∈ tokens
                      then "86 0 1 16\n" else "86 0 0 16\n")) := by
  obtain ⟨ht, _, hm⟩ := main_spec input junk
  refine ⟨_, ht, ?_⟩
  intro h
  have hv : (spec_tokens input).any is_vfp_insn = false := by
    apply any_false_of_forall
    intro t hmem
    have := (h t hmem).1
    simp only [List.mem_cons, List.mem_singleton, List.not_mem_nil, or_false, not_or] at this
    simp [is_vfp_insn, this.1, this.2.1]
  have ha : (spec_tokens input).any is_arm_insn = false := by
    apply any_false_of_forall
    intro t hmem
    have := (h t hmem).1
    simp only [List.mem_cons, List.mem_singleton, List.not_mem_nil, or_false, not_or] at this
    simp [is_arm_insn, this.2.2.1, this.2.2.2]
  have hatt : (spec_tokens input).any is_att_register = false := by
    apply any_false_of_forall
    intro t hmem
    cases hx : is_att_register t with
    | false => rfl
    | true =>
      obtain ⟨u, e, hu⟩ := (is_att_register_iff t).1 hx
      exact absurd hu ((h t hmem).2.2 u e)
  have hops : (spec_tokens input).foldl (fun o t => max_operands o (implied_operands t))
      X86_OPERAND_16 = X86_OPERAND_16 :=
    foldl_max_operands_16 _
      (fun t hmem => implied_operands_of_not_reg t (h t hmem).2.1 (h t hmem).2.2) _
  rw [hm, classify_tokens, hv, ha, hatt, hops]
  by_cases hx : bytes "finit" ∈ spec_tokens input ∨ bytes "fld" ∈ spec_tokens input
      ∨ bytes "fst" ∈ spec_tokens input
  · have h87 : (spec_tokens input).any is_x87_insn = true := by
      rcases hx with hx | hx | hx
      · exact any_of_mem is_x87_insn hx (by decide)
      · exact any_of_mem is_x87_insn hx (by decide)
      · exact any_of_mem is_x87_insn hx (by decide)
    rw [if_pos hx, h87]
    decide
  · have h87 : (spec_tokens input).any is_x87_insn = false := by
      apply any_false_of_forall
      intro t hmem
      simp only [not_or] at hx
      have h1 : t ≠ bytes "finit" := fun e => hx.1 (e ▸ hmem)
      have h2 : t ≠ bytes "fld" := fun e => hx.2.1 (e ▸ hmem)
      have h3 : t ≠ bytes "fst" := fun e => hx.2.2 (e ▸ hmem)
      simp [is_x87_insn, h1, h2, h3]
    rw [if_neg hx, h87]
    decide

theorem C8_no_register_prints_16_witness :
    main (bytes "MOV foo, 1 ; \"eax\"") [] = some "86 0 0 16\n" := by
  obtain ⟨tokens, ht, h⟩ := C8_no_register_prints_16 (bytes "MOV foo, 1 ; \"eax\"") []
  have e : main_tokens (bytes "MOV foo, 1 ; \"eax\"") []
      = some [bytes "mov", bytes "foo", bytes "1", bytes ";"] := by
    decide
  rw [e] at ht
  cases ht
  have hh : ∀ t ∈ [bytes "mov", bytes "foo", bytes "1", bytes ";"],
      t ∉ [bytes "vldr", bytes "vstr", bytes "ldr", bytes "str"]
      ∧ t ∉ x86_reg_names ∧ ∀ u, t = 37 :: u → u ∉ x86_reg_names := by
    intro t ht
    refine ⟨?_, ?_, ?_⟩
    · revert t; decide
    · revert t; decide
    · intro u hu
      exfalso
      have : ∀ t ∈ [bytes "mov", bytes "foo", bytes "1", bytes ";"], t.head? ≠ some 37 := by
        decide
      exact this t ht (by rw [hu]; rfl)
  have := h hh
  rw [this]
  decide

/-- C9: started from the default flags, `check_x86_regs_flavor_and_size` ends
with flavor AT&T if and only if some token is `%` followed by one of the x86
register names; over tokens none of which is `%` + register name the flavor
stays what it was, whatever register names they are; for every input whose
tokens hold none of `ldr`, `str`, `vldr`, `vstr` the flavor flag at the end of
main is AT&T exactly when a token is `%` + register name; the input
`mov %eax, %ebx` prints `86 1 0 32` and `mov rax, rbx` prints `86 0 0 64`. -/
theorem C9_flavor_att_iff_percent_register :
    (∀ ws : List (List Nat),
      (check_x86_regs_flavor_and_size ws X86_FLAVOR_INTEL X86_OPERAND_16).1 = X86_FLAVOR_ATT
        ↔ ∃ t ∈ ws.map c_str, ∃ u, t = 37 :: u ∧ u ∈ x86_reg_names)
    ∧ (∀ (ws : List (List Nat)) (fl : X86Flavor) (ops : X86Operands),
      (∀ t ∈ ws.map c_str, ∀ u, t = 37 :: u → u ∉ x86_reg_names)
        → (check_x86_regs_flavor_and_size ws fl ops).1 = fl)
    ∧ (∀ input junk : List Nat, ∃ tokens flags,
      main_tokens input junk = some tokens ∧ main_flags input junk = some flags
      ∧ ((∀ t ∈ tokens, t ∉ [bytes "ldr", bytes "str", bytes "vldr", bytes "vstr"])
          → (flags.x86_flavor = X86_FLAVOR_ATT
              ↔ ∃ t ∈ tokens, ∃ u, t = 37 :: u ∧ u ∈ x86_reg_names)))
    ∧ (∀ junk : List Nat, main (bytes "mov %eax, %ebx") junk = some "86 1 0 32\n")
    ∧ (∀ junk : List Nat, main (bytes "mov rax, rbx") junk = some "86 0 0 64\n") := by
  refine ⟨?_, ?_, ?_, ?_, ?_⟩
  · intro ws
    rw [check_x86_regs_flavor_and_size_eq, ← any_is_att_register_iff]
    by_cases h : (ws.map c_str).any is_att_register = true <;> simp [h]
  · intro ws fl ops h
    rw [check_x86_regs_flavor_and_size_eq]
    have : ¬ (ws.map c_str).any is_att_register = true := by
      rw [any_is_att_register_iff]
      rintro ⟨t, hm, u, e, hu⟩
      exact h t hm u e hu
    simp [this]
  · intro input junk
    obtain ⟨ht, hf, _⟩ := main_spec input junk
    refine ⟨_, _, ht, hf, ?_⟩
    intro h
    have hv : (spec_tokens input).any is_vfp_insn = false := by
      apply any_false_of_forall
      intro t hmem
      have := h t hmem
      simp only [List.mem_cons, List.mem_singleton, List.not_mem_nil, or_false, not_or] at this
      simp [is_vfp_insn, this.2.2.1, this.2.2.2]
    have ha : (spec_tokens input).any is_arm_insn = false := by
      apply any_false_of_forall
      intro t hmem
      have := h t hmem
      simp only [List.mem_cons, List.mem_singleton, List.not_mem_nil, or_false, not_or] at this
      simp [is_arm_insn, this.1, this.2.1]
    rw [← any_is_att_register_iff, classify_tokens, hv, ha]
    by_cases hx : (spec_tokens input).any is_att_register = true <;> simp [hx]
  · intro junk
    rw [(main_spec _ junk).2.2]
    decide
  · intro junk
    rw [(main_spec _ junk).2.2]
    decide

theorem C9_flavor_att_iff_percent_register_witness :
    (∀ t ∈ [bytes "mov", bytes "rax", bytes "%foo"].map c_str,
        ∀ u, t = 37 :: u → u ∉ x86_reg_names)
    ∧ (check_x86_regs_flavor_and_size [bytes "mov", bytes "rax", bytes "%foo"]
        X86_FLAVOR_INTEL X86_OPERAND_16).1 = X86_FLAVOR_INTEL := by
  have hh : ∀ t ∈ [bytes "mov", bytes "rax", bytes "%foo"].map c_str,
      ∀ u, t = 37 :: u → u ∉ x86_reg_names := by
    intro t ht u hu
    have h1 : ∀ t ∈ [bytes "mov", bytes "rax", bytes "%foo"].map c_str,
        t.head? = some 37 → t.drop 1 ∉ x86_reg_names := by decide
    have := h1 t ht (by rw [hu]; rfl)
    rw [hu] at this
    exact this
  exact ⟨hh, C9_flavor_att_iff_percent_register.2.1 _ _ _ hh⟩

/-- C10: for every token list and start flavor, started from width 16, the
operand width `check_x86_regs_flavor_and_size` leaves is the maximum, over all
tokens, of the width each token implies: after removing at most one leading
`%`, 64 for `r` followed by one of ax, bx, cx, dx, si, di, sp, bp, 32 for `e`
followed by one of them, and 16 otherwise. The early return loses nothing. -/
theorem C10_operand_width_is_maximum (ws : List (List Nat)) (fl : X86Flavor) :
    bits (check_x86_regs_flavor_and_size ws fl X86_OPERAND_16).2
      = ((ws.map c_str).map (fun t =>
          if strip_percent t ∈ gp_reg_names.map (fun n => 114 :: n) then 64
          else if strip_percent t ∈ gp_reg_names.map (fun n => 101 :: n) then 32
          else 16)).foldr max 16 := by
  have hb : ∀ t : List Nat, bits (implied_operands t)
      = if strip_percent t ∈ gp_reg_names.map (fun n => 114 :: n) then 64
        else if strip_percent t ∈ gp_reg_names.map (fun n => 101 :: n) then 32
        else 16 := by
    intro t
    rw [implied_operands, reg_operands]
    simp only [r_reg_names, e_reg_names]
    split
    · rfl
    · split <;> rfl
  rw [check_x86_regs_flavor_and_size_eq, bits_foldl_max_operands]
  simp only [hb]
  have h16 : ∀ l : List Nat, 16 ≤ l.foldr max 16 := by
    intro l
    induction l with
    | nil => exact le_rfl
    | cons a l ih => rw [List.foldr_cons]; exact le_trans ih (le_max_right _ _)
  exact max_eq_right (h16 _)

/-- C11: the pass `check_x87_commands`, started with the x87 flag absent, sets
it exactly when the string of some word equals `finit`, `fld` or `fst`; for
every input the program prints the line of its final flags, and when no token
is `ldr`, `str`, `vldr` or `vstr` the x87 flag is present exactly when a token
is `finit`, `fld` or `fst`; the inputs `fldz` and `fstp` print `86 0 0 16`
and `fld st(0)` prints `86 0 1 16`. -/
theorem C11_x87_bit_iff_exact_mnemonic :
    (∀ ws : List (List Nat),
      check_x87_commands ws X87_ABSENT = X87_PRESENT
        ↔ ∃ w ∈ ws, c_str w = bytes "finit" ∨ c_str w = bytes "fld" ∨ c_str w = bytes "fst")
    ∧ (∀ input junk : List Nat, ∃ tokens flags,
      main_tokens input junk = some tokens ∧ main_flags input junk = some flags
      ∧ main input junk = some (emit flags)
      ∧ ((∀ t ∈ tokens, t ∉ [bytes "ldr", bytes "str", bytes "vldr", bytes "vstr"])
          → (flags.x87_insns = X87_PRESENT
              ↔ bytes "finit" ∈ tokens ∨ bytes "fld" ∈ tokens ∨ bytes "fst" ∈ tokens)))
    ∧ (∀ junk : List Nat, main (bytes "fldz") junk = some "86 0 0 16\n")
    ∧ (∀ junk : List Nat, main (bytes "fstp") junk = some "86 0 0 16\n")
    ∧ (∀ junk : List Nat, main (bytes "fld st(0)") junk = some "86 0 1 16\n") := by
  have hany : ∀ ts : List (List Nat), ts.any is_x87_insn = true
      ↔ bytes "finit" ∈ ts ∨ bytes "fld" ∈ ts ∨ bytes "fst" ∈ ts := by
    intro ts
    rw [List.any_eq_true]
    constructor
    · rintro ⟨t, hm, hf⟩
      simp only [is_x87_insn, Bool.or_eq_true, decide_eq_true_eq] at hf
      rcases hf with (hf | hf) | hf
      · exact Or.inl (hf ▸ hm)
      · exact Or.inr (Or.inl (hf ▸ hm))
      · exact Or.inr (Or.inr (hf ▸ hm))
    · rintro (h | h | h)
      · exact ⟨_, h, by decide⟩
      · exact ⟨_, h, by decide⟩
      · exact ⟨_, h, by decide⟩
  refine ⟨?_, ?_, ?_, ?_, ?_⟩
  · intro ws
    rw [check_x87_commands_eq]
    have h1 : (if (ws.map c_str).any is_x87_insn = true then X87_PRESENT else X87_ABSENT)
        = X87_PRESENT ↔ (ws.map c_str).any is_x87_insn = true := by
      by_cases h : (ws.map c_str).any is_x87_insn = true <;> simp [h]
    rw [h1, hany]
    simp only [List.mem_map]
    constructor
    · rintro (⟨w, hw, e⟩ | ⟨w, hw, e⟩ | ⟨w, hw, e⟩)
      · exact ⟨w, hw, Or.inl e⟩
      · exact ⟨w, hw, Or.inr (Or.inl e)⟩
      · exact ⟨w, hw, Or.inr (Or.inr e)⟩
    · rintro ⟨w, hw, e | e | e⟩
      · exact Or.inl ⟨w, hw, e⟩
      · exact Or.inr (Or.inl ⟨w, hw, e⟩)
      · exact Or.inr (Or.inr ⟨w, hw, e⟩)
  · intro input junk
    obtain ⟨ht, hf, hm⟩ := main_spec input junk
    refine ⟨_, _, ht, hf, hm, ?_⟩
    intro h
    have hv : (spec_tokens input).any is_vfp_insn = false := by
      apply any_false_of_forall
      intro t hmem
      have := h t hmem
      simp only [List.mem_cons, List.mem_singleton, List.not_mem_nil, or_false, not_or] at this
      simp [is_vfp_insn, this.2.2.1, this.2.2.2]
    have ha : (spec_tokens input).any is_arm_insn = false := by
      apply any_false_of_forall
      intro t hmem
      have := h t hmem
      simp only [List.mem_cons, List.mem_singleton, List.not_mem_nil, or_false, not_or] at this
      simp [is_arm_insn, this.1, this.2.1]
    rw [← hany, classify_tokens, hv, ha]
    by_cases hx : (spec_tokens input).any is_x87_insn = true <;> simp [hx]
  · intro junk
    rw [(main_spec _ junk).2.2]
    decide
  · intro junk
    rw [(main_spec _ junk).2.2]
    decide
  · intro junk
    rw [(main_spec _ junk).2.2]
    decide

theorem C11_x87_bit_iff_exact_mnemonic_witness :
    (∃ w ∈ [bytes "fldz", bytes "fld", bytes "st"],
        c_str w = bytes "finit" ∨ c_str w = bytes "fld" ∨ c_str w = bytes "fst")
    ∧ check_x87_commands [bytes "fldz", bytes "fld", bytes "st"] X87_ABSENT = X87_PRESENT :=
  ⟨⟨bytes "fld", by decide, Or.inr (Or.inl (by decide))⟩,
   (C11_x87_bit_iff_exact_mnemonic.1 [bytes "fldz", bytes "fld", bytes "st"]).2
     ⟨bytes "fld", by decide, Or.inr (Or.inl (by decide))⟩⟩

/-- C12: for every word and every prior operand width, the width after
`check_x86_reg` is at least the width before; hence the width
`check_x86_regs_flavor_and_size` has reached after any first part of the words
is at most the width it has after any longer part, and never below the start
width; a later `ax` or `eax` does not lower a width raised by `eax` or `rax`. -/
theorem C12_operand_width_monotone :
    (∀ (word : List Nat) (ops : X86Operands),
      bits ops ≤ bits (check_x86_reg word ops).2)
    ∧ (∀ (ws : List (List Nat)) (fl : X86Flavor) (ops : X86Operands),
      bits ops ≤ bits (check_x86_regs_flavor_and_size ws fl ops).2)
    ∧ (∀ (ws1 ws2 : List (List Nat)) (fl : X86Flavor) (ops : X86Operands),
      bits (check_x86_regs_flavor_and_size ws1 fl ops).2
        ≤ bits (check_x86_regs_flavor_and_size (ws1 ++ ws2) fl ops).2)
    ∧ (check_x86_regs_flavor_and_size [bytes "eax", bytes "ax"]
        X86_FLAVOR_INTEL X86_OPERAND_16).2 = X86_OPERAND_32
    ∧ (check_x86_regs_flavor_and_size [bytes "rax", bytes "eax", bytes "ax"]
        X86_FLAVOR_INTEL X86_OPERAND_16).2 = X86_OPERAND_64 := by
  refine ⟨?_, ?_, ?_, by decide, by decide⟩
  · intro word ops
    rw [check_x86_reg_snd_view]
    exact bits_le_max_operands _ _
  · intro ws fl ops
    rw [check_x86_regs_flavor_and_size_eq]
    exact bits_le_foldl_max_operands _ _
  · intro ws1 ws2 fl ops
    rw [check_x86_regs_flavor_and_size_eq, check_x86_regs_flavor_and_size_eq, List.map_append,
      List.foldl_append]
    exact bits_le_foldl_max_operands _ _

/-- C13, as stated, fails: for the initial flags (ISA x86, Intel, no x87,
width 16) the line printed is `86 0 0 16`, with a space between the x87 bit
and the width token, not `86 0 016`. -/
theorem C13_counterexample :
    initial_flags.instruction_set_architecture = ISA_X86
      ∧ emit initial_flags = "86 0 0 16\n"
      ∧ emit initial_flags ≠ "86 " ++ "0" ++ " " ++ "0" ++ "16" ++ "\n" := by
  decide

/-- C13, amended: for every final flag state with ISA x86 the line printed is
`86 `, the flavor bit (`1` if AT&T else `0`), one space, the x87 bit (`1` if
x87 present else `0`), one space, and the width token (`64`, `32` or `16`),
with no trailing space, followed by one newline. -/
theorem C13_x86_line_format (g : Flags) (h : g.instruction_set_architecture = ISA_X86) :
    emit g = "86 "
      ++ (if g.x86_flavor = X86_FLAVOR_ATT then "1" else "0") ++ " "
      ++ (if g.x87_insns = X87_PRESENT then "1" else "0") ++ " "
      ++ (if g.x86_operands = X86_OPERAND_64 then "64"
          else if g.x86_operands = X86_OPERAND_32 then "32" else "16")
      ++ "\n" := by
  obtain ⟨isa, vfp, fl, x87, ops⟩ := g
  simp only at h
  subst h
  cases vfp <;> cases fl <;> cases x87 <;> cases ops <;> decide

theorem C13_x86_line_format_witness :
    (Flags.mk ISA_X86 ARM_VFP_ABSENT X86_FLAVOR_ATT X87_PRESENT
        X86_OPERAND_64).instruction_set_architecture = ISA_X86
    ∧ emit (Flags.mk ISA_X86 ARM_VFP_ABSENT X86_FLAVOR_ATT X87_PRESENT X86_OPERAND_64)
      = "86 "
        ++ (if (Flags.mk ISA_X86 ARM_VFP_ABSENT X86_FLAVOR_ATT X87_PRESENT
              X86_OPERAND_64).x86_flavor = X86_FLAVOR_ATT then "1" else "0") ++ " "
        ++ (if (Flags.mk ISA_X86 ARM_VFP_ABSENT X86_FLAVOR_ATT X87_PRESENT
              X86_OPERAND_64).x87_insns = X87_PRESENT then "1" else "0") ++ " "
        ++ (if (Flags.mk ISA_X86 ARM_VFP_ABSENT X86_FLAVOR_ATT X87_PRESENT
              X86_OPERAND_64).x86_operands = X86_OPERAND_64 then "64"
            else if (Flags.mk ISA_X86 ARM_VFP_ABSENT X86_FLAVOR_ATT X87_PRESENT
              X86_OPERAND_64).x86_operands = X86_OPERAND_32 then "32" else "16")
        ++ "\n" :=
  ⟨rfl, C13_x86_line_format _ rfl⟩

/-- C14: the register names are the 27 names cs, ds, ss, the eight names ax,
bx, cx, dx, si, di, sp, bp, and these eight prefixed with `e` and with `r`; for
every NUL-free token, whatever memory lies behind its terminating NUL,
`check_x86_reg` returns true if and only if the token is one of them; it
returns false for every token of length 1 and of length 4 or more, and for es,
fs and gs. -/
theorem C14_check_x86_reg_iff_register_name :
    x86_reg_names
      = [bytes "cs", bytes "ds", bytes "ss",
         bytes "ax", bytes "bx", bytes "cx", bytes "dx",
         bytes "si", bytes "di", bytes "sp", bytes "bp",
         bytes "eax", bytes "ebx", bytes "ecx", bytes "edx",
         bytes "esi", bytes "edi", bytes "esp", bytes "ebp",
         bytes "rax", bytes "rbx", bytes "rcx", bytes "rdx",
         bytes "rsi", bytes "rdi", bytes "rsp", bytes "rbp"]
    ∧ (∀ (t rest : List Nat) (ops : X86Operands), 0 ∉ t →
      ((check_x86_reg (t ++ 0 :: rest) ops).1 = true ↔ t ∈ x86_reg_names))
    ∧ (∀ (t rest : List Nat) (ops : X86Operands), 0 ∉ t → (t.length = 1 ∨ 4 ≤ t.length) →
      (check_x86_reg (t ++ 0 :: rest) ops).1 = false)
    ∧ (∀ (rest : List Nat) (ops : X86Operands),
      (check_x86_reg (bytes "es" ++ 0 :: rest) ops).1 = false
      ∧ (check_x86_reg (bytes "fs" ++ 0 :: rest) ops).1 = false
      ∧ (check_x86_reg (bytes "gs" ++ 0 :: rest) ops).1 = false) := by
  have key : ∀ (t rest : List Nat) (ops : X86Operands), 0 ∉ t →
      (check_x86_reg (t ++ 0 :: rest) ops).1 = decide (t ∈ x86_reg_names) := by
    intro t rest ops h0
    rw [check_x86_reg_fst_view, c_str_append t (0 :: rest) h0 rfl]
  refine ⟨by decide, ?_, ?_, ?_⟩
  · intro t rest ops h0
    rw [key t rest ops h0, decide_eq_true_eq]
  · intro t rest ops h0 hl
    rw [key t rest ops h0, decide_eq_false_iff_not]
    intro hm
    have hlen : ∀ n ∈ x86_reg_names, n.length = 2 ∨ n.length = 3 := by decide
    have := hlen t hm
    omega
  · intro rest ops
    refine ⟨?_, ?_, ?_⟩
    · rw [key _ rest ops (by decide)]; decide
    · rw [key _ rest ops (by decide)]; decide
    · rw [key _ rest ops (by decide)]; decide

theorem C14_check_x86_reg_iff_register_name_witness :
    0 ∉ bytes "esi"
    ∧ ((check_x86_reg (bytes "esi" ++ 0 :: [120, 0]) X86_OPERAND_16).1 = true
        ↔ bytes "esi" ∈ x86_reg_names) :=
  ⟨by decide,
   C14_check_x86_reg_iff_register_name.2.1 (bytes "esi") [120, 0] X86_OPERAND_16 (by decide)⟩

/-- C15: for every buffer of ASCII bytes (of which `data_len` are recorded),
`lowercase` keeps the length, replaces each recorded byte `A`..`Z` by the byte
32 above it (`a`..`z`) and leaves every other byte as it is, the memory behind
the recorded bytes included; applied twice it gives what it gives applied
once. -/
theorem C15_lowercase_ascii (data : List Nat) (data_len : Nat)
    (hlen : data_len ≤ data.length) (hascii : ∀ c ∈ data, c < 128) :
    (lowercase data data_len).length = data.length
    ∧ (∀ i, i < data_len →
        (lowercase data data_len).getD i 0
          = if 65 ≤ data.getD i 0 ∧ data.getD i 0 ≤ 90 then data.getD i 0 + 32
            else data.getD i 0)
    ∧ (∀ i, data_len ≤ i → (lowercase data data_len).getD i 0 = data.getD i 0)
    ∧ (∀ c ∈ lowercase data data_len, c < 128)
    ∧ lowercase (lowercase data data_len) data_len = lowercase data data_len := by
  have hl : (lowercase data data_len).length = data.length := by
    simp only [lowercase, List.length_append, List.length_map, List.length_take,
      List.length_drop]
    omega
  have htt : ∀ c, tolower (tolower c) = tolower c := by
    intro c
    unfold tolower
    split_ifs <;> omega
  refine ⟨hl, ?_, ?_, ?_, ?_⟩
  · intro i hi
    have h1 : i < ((data.take data_len).map tolower).length := by
      simp only [List.length_map, List.length_take]; omega
    have h2 : i < data.length := by omega
    simp only [lowercase, List.getD_eq_getElem?_getD, List.getElem?_append_left h1,
      List.getElem?_map, List.getElem?_take, hi, if_true, List.getElem?_eq_getElem h2,
      Option.map_some', Option.getD_some]
    rfl
  · intro i hi
    have h1 : ((data.take data_len).map tolower).length ≤ i := by
      simp only [List.length_map, List.length_take]; omega
    have h3 : ((data.take data_len).map tolower).length = data_len := by
      simp only [List.length_map, List.length_take]; omega
    simp only [lowercase, List.getD_eq_getElem?_getD, List.getElem?_append_right h1, h3,
      List.getElem?_drop]
    congr 2
    omega
  · intro c hc
    simp only [lowercase, List.mem_append, List.mem_map] at hc
    rcases hc with ⟨x, hx, rfl⟩ | hc
    · have := hascii x (List.mem_of_mem_take hx)
      unfold tolower
      split_ifs <;> omega
    · exact hascii c (List.mem_of_mem_drop hc)
  · have e1 : (lowercase data data_len).take data_len = (data.take data_len).map tolower := by
      rw [lowercase]
      exact List.take_left' (by simp only [List.length_map, List.length_take]; omega)
    have e2 : (lowercase data data_len).drop data_len = data.drop data_len := by
      rw [lowercase]
      exact List.drop_left' (by simp only [List.length_map, List.length_take]; omega)
    rw [lowercase, e1, e2, List.map_map]
    have : tolower ∘ tolower = tolower := funext htt
    rw [this]
    rfl

theorem C15_lowercase_ascii_witness :
    ((bytes "Mov %EAX, \"Az\"").length + 1 ≤ (bytes "Mov %EAX, \"Az\"" ++ [0, 65]).length
      ∧ ∀ c ∈ bytes "Mov %EAX, \"Az\"" ++ [0, 65], c < 128)
    ∧ ((lowercase (bytes "Mov %EAX, \"Az\"" ++ [0, 65])
          ((bytes "Mov %EAX, \"Az\"").length + 1)).length
        = (bytes "Mov %EAX, \"Az\"" ++ [0, 65]).length
      ∧ lowercase (bytes "Mov %EAX, \"Az\"" ++ [0, 65]) ((bytes "Mov %EAX, \"Az\"").length + 1)
        = bytes "mov %eax, \"az\"" ++ [0, 65]) :=
  ⟨⟨by decide, by decide⟩,
   (C15_lowercase_ascii (bytes "Mov %EAX, \"Az\"" ++ [0, 65])
      ((bytes "Mov %EAX, \"Az\"").length + 1) (by decide) (by decide)).1,
   by decide⟩

/-- C16: for every list of words and every state of the flags, when
`check_arm_and_vfp_insns` returns true the classifier leaves the three x86
flags as they were; started from the initial flags they end as Intel, width
16, x87 absent; so for every input with a token `ldr`, `str`, `vldr` or `vstr`,
and for the words `%rax`, `fld`, `ldr`. -/
theorem C16_arm_leaves_x86_flags :
    (∀ (ws : List (List Nat)) (g : Flags),
      (check_arm_and_vfp_insns ws g.instruction_set_architecture g.arm_vfp_insns).1 = true
        → (classify ws g).x86_flavor = g.x86_flavor
          ∧ (classify ws g).x86_operands = g.x86_operands
          ∧ (classify ws g).x87_insns = g.x87_insns)
    ∧ (∀ ws : List (List Nat),
      (check_arm_and_vfp_insns ws ISA_X86 ARM_VFP_ABSENT).1 = true
        → (classify ws initial_flags).x86_flavor = X86_FLAVOR_INTEL
          ∧ (classify ws initial_flags).x86_operands = X86_OPERAND_16
          ∧ (classify ws initial_flags).x87_insns = X87_ABSENT)
    ∧ (∀ input junk : List Nat, ∃ tokens flags,
      main_tokens input junk = some tokens ∧ main_flags input junk = some flags
      ∧ ((bytes "ldr" ∈ tokens ∨ bytes "str" ∈ tokens ∨ bytes "vldr" ∈ tokens
            ∨ bytes "vstr" ∈ tokens)
          → flags.x86_flavor = X86_FLAVOR_INTEL ∧ flags.x86_operands = X86_OPERAND_16
            ∧ flags.x87_insns = X87_ABSENT))
    ∧ classify [bytes "%rax", bytes "fld", bytes "ldr"] initial_flags
        = ⟨ISA_ARM, ARM_VFP_ABSENT, X86_FLAVOR_INTEL, X87_ABSENT, X86_OPERAND_16⟩ := by
  have gen : ∀ (ws : List (List Nat)) (g : Flags),
      (check_arm_and_vfp_insns ws g.instruction_set_architecture g.arm_vfp_insns).1 = true
        → (classify ws g).x86_flavor = g.x86_flavor
          ∧ (classify ws g).x86_operands = g.x86_operands
          ∧ (classify ws g).x87_insns = g.x87_insns := by
    intro ws g h
    rcases hc : check_arm_and_vfp_insns ws g.instruction_set_architecture g.arm_vfp_insns
      with ⟨b, isa, vfp⟩
    rw [hc] at h
    simp only at h
    subst h
    simp only [classify, hc, and_self]
  refine ⟨gen, fun ws h => gen ws initial_flags h, ?_, by decide⟩
  intro input junk
  obtain ⟨ht, hf, _⟩ := main_spec input junk
  refine ⟨_, _, ht, hf, ?_⟩
  intro h
  rw [classify_tokens]
  by_cases hv : (spec_tokens input).any is_vfp_insn = true
  · rw [if_pos hv]
    exact ⟨rfl, rfl, rfl⟩
  · have ha : (spec_tokens input).any is_arm_insn = true := by
      rcases h with h | h | h | h
      · exact any_of_mem is_arm_insn h (by decide)
      · exact any_of_mem is_arm_insn h (by decide)
      · exact absurd (any_of_mem is_vfp_insn h (by decide)) hv
      · exact absurd (any_of_mem is_vfp_insn h (by decide)) hv
    rw [if_neg hv, if_pos ha]
    exact ⟨rfl, rfl, rfl⟩

theorem C16_arm_leaves_x86_flags_witness :
    (check_arm_and_vfp_insns [bytes "%rax", bytes "fld", bytes "ldr"]
        ISA_X86 ARM_VFP_ABSENT).1 = true
    ∧ ((classify [bytes "%rax", bytes "fld", bytes "ldr"] initial_flags).x86_flavor
          = X86_FLAVOR_INTEL
      ∧ (classify [bytes "%rax", bytes "fld", bytes "ldr"] initial_flags).x86_operands
          = X86_OPERAND_16
      ∧ (classify [bytes "%rax", bytes "fld", bytes "ldr"] initial_flags).x87_insns
          = X87_ABSENT) :=
  ⟨by decide, C16_arm_leaves_x86_flags.2.1 [bytes "%rax", bytes "fld", bytes "ldr"] (by decide)⟩

/-- C17: the early return of `check_x86_regs_flavor_and_size` is unobservable:
for every list of words and every start flavor and width, the pass as written
ends in the same flavor and width as the same loop without the early return,
run over all words. -/
theorem C17_early_return_unobservable (ws : List (List Nat)) (fl : X86Flavor)
    (ops : X86Operands) :
    check_x86_regs_flavor_and_size ws fl ops
      = check_x86_regs_flavor_and_size_no_return ws fl ops := by
  induction ws generalizing fl ops with
  | nil => rfl
  | cons w ws ih =>
    by_cases hg : w.getD 0 0 = 37
    · rcases h : check_x86_reg (w.drop 1) ops with ⟨b, o⟩
      cases b
      · rw [check_x86_regs_flavor_and_size, check_x86_regs_flavor_and_size_no_return,
          if_pos hg, if_pos hg, h]
        simp only []
        rw [ih]
      · rw [check_x86_regs_flavor_and_size, check_x86_regs_flavor_and_size_no_return,
          if_pos hg, if_pos hg, h]
        simp only []
        by_cases h64 : o = X86_OPERAND_64
        · subst h64
          rw [if_pos rfl, no_return_att_64]
        · rw [if_neg h64, ih]
    · rw [check_x86_regs_flavor_and_size, check_x86_regs_flavor_and_size_no_return,
        if_neg hg, if_neg hg, ih]

/-- C18: the classification depends only on which tokens occur: for every
list of words and every permutation of it, and more generally for every two
lists of words with the same set of strings, the classifier (the ARM pass,
then, if it returns false, the two x86 passes) run from the default flags
leaves the same five flags, and the same line is printed. -/
theorem C18_classification_order_independent :
    (∀ ws1 ws2 : List (List Nat), ws1.Perm ws2 →
      classify ws1 initial_flags = classify ws2 initial_flags
      ∧ emit (classify ws1 initial_flags) = emit (classify ws2 initial_flags))
    ∧ (∀ ws1 ws2 : List (List Nat), (∀ t, t ∈ ws1.map c_str ↔ t ∈ ws2.map c_str) →
      classify ws1 initial_flags = classify ws2 initial_flags
      ∧ emit (classify ws1 initial_flags) = emit (classify ws2 initial_flags)) := by
  have gen : ∀ ws1 ws2 : List (List Nat), (∀ t, t ∈ ws1.map c_str ↔ t ∈ ws2.map c_str) →
      classify ws1 initial_flags = classify ws2 initial_flags
      ∧ emit (classify ws1 initial_flags) = emit (classify ws2 initial_flags) := by
    intro ws1 ws2 h
    have e : classify ws1 initial_flags = classify ws2 initial_flags := by
      rw [classify_eq, classify_eq]
      exact classify_tokens_congr _ _ h
    exact ⟨e, by rw [e]⟩
  refine ⟨?_, gen⟩
  intro ws1 ws2 hp
  apply gen
  intro t
  exact (hp.map c_str).mem_iff

theorem C18_classification_order_independent_witness :
    [bytes "mov", bytes "%rax", bytes "fld", bytes "%eax"].Perm
        [bytes "%eax", bytes "fld", bytes "%rax", bytes "mov"]
    ∧ (classify [bytes "mov", bytes "%rax", bytes "fld", bytes "%eax"] initial_flags
          = classify [bytes "%eax", bytes "fld", bytes "%rax", bytes "mov"] initial_flags
      ∧ emit (classify [bytes "mov", bytes "%rax", bytes "fld", bytes "%eax"] initial_flags)
          = emit (classify [bytes "%eax", bytes "fld", bytes "%rax", bytes "mov"]
              initial_flags)) :=
  ⟨by decide,
   C18_classification_order_independent.1 _ _ (by decide)⟩

/-- C19: the pipeline is case-insensitive: for every input `s`, NUL-free and
ASCII or not, the line printed for `s` is printed for `s` with every `A`..`Z`
lowercased and for `s` with every `a`..`z` uppercased; and for NUL-free `s` the
two orders of `cut_string_literals` and `lowercase` leave the same recorded
bytes. -/
theorem C19_pipeline_case_insensitive (s junk1 junk2 junk3 : List Nat) :
    (∃ line, main s junk1 = some line
      ∧ main (s.map tolower) junk2 = some line
      ∧ main (s.map toupper) junk3 = some line)
    ∧ (0 ∉ s → ∃ d1 n1 d2 n2,
      cut_string_literals (s ++ 0 :: junk1) (s.length + 1) = some (d1, n1)
      ∧ cut_string_literals (lowercase (s ++ 0 :: junk1) (s.length + 1)) (s.length + 1)
          = some (d2, n2)
      ∧ n1 = n2 ∧ (lowercase d1 n1).take n1 = d2.take n2) := by
  refine ⟨⟨emit (classify_tokens (spec_tokens s)), (main_spec s junk1).2.2, ?_, ?_⟩, ?_⟩
  · rw [(main_spec _ junk2).2.2,
      spec_tokens_map tolower tolower_eq_zero tolower_eq_quote tolower_tolower]
  · rw [(main_spec _ junk3).2.2,
      spec_tokens_map toupper toupper_eq_zero toupper_eq_quote tolower_toupper]
  · intro h0
    obtain ⟨J1, hc1, _⟩ := cut_string_literals_eq s [] junk1 h0
    simp only [List.nil_append, List.length_nil, Nat.add_zero] at hc1
    have hlow : lowercase (s ++ 0 :: junk1) (s.length + 1) = s.map tolower ++ 0 :: junk1 := by
      have := lowercase_eq s [] junk1
      simpa using this
    obtain ⟨J2, hc2, _⟩ := cut_string_literals_eq (s.map tolower) [] junk1
      (zero_not_mem_map_tolower s h0)
    simp only [List.nil_append, List.length_nil, Nat.add_zero, List.length_map] at hc2
    refine ⟨_, _, strip (s.map tolower) ++ 0 :: J2, (strip (s.map tolower)).length + 1,
      hc1, ?_, ?_, ?_⟩
    · rw [hlow]; exact hc2
    · rw [strip_map tolower tolower_eq_quote, List.length_map]
    · have e1 : lowercase (strip s ++ 0 :: J1) ((strip s).length + 1)
          = (strip s).map tolower ++ 0 :: J1 := by
        have := lowercase_eq (strip s) [] J1
        simpa using this
      have e2 : ((strip s).map tolower ++ 0 :: J1).take ((strip s).length + 1)
          = (strip s).map tolower ++ [0] := by
        have e : (strip s).map tolower ++ 0 :: J1 = ((strip s).map tolower ++ [0]) ++ J1 := by
          simp
        rw [e]; exact List.take_left' (by simp)
      have e3 : (strip (s.map tolower) ++ 0 :: J2).take ((strip (s.map tolower)).length + 1)
          = strip (s.map tolower) ++ [0] := by
        have e : strip (s.map tolower) ++ 0 :: J2 = (strip (s.map tolower) ++ [0]) ++ J2 := by
          simp
        rw [e]; exact List.take_left' (by simp)
      rw [e1, e2, e3, strip_map tolower tolower_eq_quote]

theorem C19_pipeline_case_insensitive_witness :
    0 ∉ bytes "Mov %Eax, \"x\" FLD"
    ∧ ((∃ line, main (bytes "Mov %Eax, \"x\" FLD") [] = some line
        ∧ main ((bytes "Mov %Eax, \"x\" FLD").map tolower) [7] = some line
        ∧ main ((bytes "Mov %Eax, \"x\" FLD").map toupper) [7, 7] = some line)
      ∧ (0 ∉ bytes "Mov %Eax, \"x\" FLD" → ∃ d1 n1 d2 n2,
        cut_string_literals (bytes "Mov %Eax, \"x\" FLD" ++ 0 :: [])
            ((bytes "Mov %Eax, \"x\" FLD").length + 1) = some (d1, n1)
        ∧ cut_string_literals
            (lowercase (bytes "Mov %Eax, \"x\" FLD" ++ 0 :: [])
              ((bytes "Mov %Eax, \"x\" FLD").length + 1))
            ((bytes "Mov %Eax, \"x\" FLD").length + 1) = some (d2, n2)
        ∧ n1 = n2 ∧ (lowercase d1 n1).take n1 = d2.take n2)) :=
  ⟨by decide, C19_pipeline_case_insensitive (bytes "Mov %Eax, \"x\" FLD") [] [7] [7, 7]⟩

/-- C20: `cut_string_literals` terminates on every NUL-terminated buffer: for
every input and memory behind its terminator, the loop returns when its
condition may be evaluated one time more than the input has double quotes,
that is after at most that many iterations of its body, and with any larger
bound it returns the same; `cut_string_literals` returns this result; the
recorded length it leaves is at most the one it found and the buffer keeps its
size. -/
theorem C20_cut_string_literals_terminates (input junk : List Nat) :
    ∃ data data_len,
      cut_loop (input.count QUOTE + 1) (input ++ 0 :: junk) (input.length + 1) 0 none
        = some (data, data_len)
      ∧ (∀ fuel, input.count QUOTE < fuel →
          cut_loop fuel (input ++ 0 :: junk) (input.length + 1) 0 none = some (data, data_len))
      ∧ cut_string_literals (input ++ 0 :: junk) (input.length + 1) = some (data, data_len)
      ∧ data_len ≤ input.length + 1
      ∧ data.length = (input ++ 0 :: junk).length := by
  obtain ⟨T, e, l⟩ := input_split input
  have e1 : input ++ 0 :: junk = c_str input ++ 0 :: (T ++ junk) := by
    have : input ++ 0 :: junk = (input ++ [0]) ++ junk := by simp
    rw [this, e]; simp
  have hcnt := count_quote_c_str_le input
  obtain ⟨J, hJ, hl⟩ := cut_loop_strip (c_str input).length (c_str input) le_rfl
    (zero_not_mem_c_str input) (input.count QUOTE + 1) [] T junk (by omega)
  simp only [List.nil_append, List.length_nil, Nat.zero_add] at hJ
  rw [← e1, ← l] at hJ
  have hmono : ∀ fuel, input.count QUOTE < fuel →
      cut_loop fuel (input ++ 0 :: junk) (input.length + 1) 0 none
        = some (strip (c_str input) ++ 0 :: (T ++ J),
            (strip (c_str input)).length + 1 + T.length) := by
    intro fuel hf
    have := cut_loop_mono _ _ _ _ _ _ hJ (fuel - (input.count QUOTE + 1))
    have e2 : input.count QUOTE + 1 + (fuel - (input.count QUOTE + 1)) = fuel := by omega
    rw [e2] at this
    exact this
  refine ⟨_, _, hJ, hmono, ?_, ?_, ?_⟩
  · rw [cut_string_literals]
    apply hmono
    have := List.count_le_length QUOTE input
    simp only [List.length_append, List.length_cons]
    omega
  · have := length_strip_le (c_str input)
    omega
  · rw [e1]
    simp only [List.length_append, List.length_cons]
    omega

end TaskK
